import Mathlib

/-!
Verification of the Bolt sprint-planning backend's write-path consistency
engine (the Fastify API server: idempotency guard, dependency graph engine,
batch mutation coordinator, cursor paginator, audit recorder).

The definitions below are a shallow embedding of the TypeScript source.
JavaScript values that flow through `JSON.stringify` are modelled by the
inductive type `Bolt.Json`; machine dates are modelled as integers
(epoch milliseconds); SHA-256 hashing in `idempotencyFingerprint` is
modelled by the hashed source string itself, since only equality of
fingerprints is ever observed.
-/

namespace Bolt

/-- JSON values as produced by `JSON.parse` / consumed by `JSON.stringify`.
Numbers are modelled as integers (no claim depends on float formatting). -/
inductive Json where
  | null : Json
  | bool : Bool → Json
  | num : Int → Json
  | str : String → Json
  | arr : List Json → Json
  | obj : List (String × Json) → Json

/-- JSON string quoting as done by `JSON.stringify` on keys and strings
(escaping of quotes, backslashes and common control characters). -/
def jsonEscapeChar (c : Char) : String :=
  if c = '"' then "\\\""
  else if c = '\\' then "\\\\"
  else if c = '\n' then "\\n"
  else if c = '\r' then "\\r"
  else if c = '\t' then "\\t"
  else String.singleton c

def jsonQuote (s : String) : String :=
  "\"" ++ String.join (s.toList.map jsonEscapeChar) ++ "\""

/-- Insertion of an entry into a key-sorted association list; comparison is
on the key only.  This models the comparator
`([a], [b]) => a.localeCompare(b)` of `stableStringify` (locale collation
modelled as the code-point order on strings). -/
def insertByKey {α : Type} (e : String × α) : List (String × α) → List (String × α)
  | [] => [e]
  | f :: rest => if e.1 ≤ f.1 then e :: f :: rest else f :: insertByKey e rest

/-- Stable sort of object entries by key, as `Object.entries(value).sort`
with a key-only comparator (a stable sort, per the ECMAScript spec). -/
def sortEntries {α : Type} : List (String × α) → List (String × α)
  | [] => []
  | e :: rest => insertByKey e (sortEntries rest)

theorem insertByKey_perm {α : Type} (e : String × α) (l : List (String × α)) :
    (insertByKey e l).Perm (e :: l) := by
  induction l with
  | nil => simp [insertByKey]
  | cons f rest ih =>
      by_cases h : e.1 ≤ f.1
      · simp [insertByKey, h]
      · simp only [insertByKey, h, if_neg, if_false]
        exact (ih.cons f).trans (List.Perm.swap e f rest)

theorem sortEntries_perm {α : Type} (l : List (String × α)) :
    (sortEntries l).Perm l := by
  induction l with
  | nil => simp [sortEntries]
  | cons e rest ih =>
      exact (insertByKey_perm e (sortEntries rest)).trans (ih.cons e)

theorem mem_sortEntries {α : Type} {e : String × α} {l : List (String × α)} :
    e ∈ sortEntries l ↔ e ∈ l :=
  (sortEntries_perm l).mem_iff

mutual

/-- `stableStringify` from the source: serialize a JSON value with every
object's entries sorted by key.  The source sorts the entries and then
serializes each value; here each value is serialized first and the
serialized entries are then key-sorted — the two orders coincide because
the stable sort compares keys only (`stableStringify_obj` recovers the
source's orientation). -/
def stableStringify : Json → String
  | .null => "null"
  | .bool true => "true"
  | .bool false => "false"
  | .num n => toString n
  | .str s => jsonQuote s
  | .arr items => "[" ++ String.intercalate "," (stringifyList items) ++ "]"
  | .obj entries =>
      "\x7b" ++
        String.intercalate ","
          ((sortEntries (stringifyEntries entries)).map
            (fun p => jsonQuote p.1 ++ ":" ++ p.2)) ++
        "\x7d"

def stringifyList : List Json → List String
  | [] => []
  | v :: rest => stableStringify v :: stringifyList rest

def stringifyEntries : List (String × Json) → List (String × String)
  | [] => []
  | e :: rest => (e.1, stableStringify e.2) :: stringifyEntries rest

end

mutual

/-- Plain `JSON.stringify` (no key sorting): used by the `onSend` hook when
serializing response bodies. -/
def jsonStringify : Json → String
  | .null => "null"
  | .bool true => "true"
  | .bool false => "false"
  | .num n => toString n
  | .str s => jsonQuote s
  | .arr items => "[" ++ String.intercalate "," (jsonStringifyList items) ++ "]"
  | .obj entries =>
      "\x7b" ++ String.intercalate "," (jsonStringifyEntries entries) ++ "\x7d"

def jsonStringifyList : List Json → List String
  | [] => []
  | v :: rest => jsonStringify v :: jsonStringifyList rest

def jsonStringifyEntries : List (String × Json) → List String
  | [] => []
  | e :: rest => (jsonQuote e.1 ++ ":" ++ jsonStringify e.2) :: jsonStringifyEntries rest

end

/-- Entries ordered by key (the postcondition of `sortEntries`). -/
def SortedByKey {α : Type} (l : List (String × α)) : Prop :=
  l.Pairwise (fun a b => a.1 ≤ b.1)

theorem insertByKey_sortedByKey {α : Type} (e : String × α) {l : List (String × α)}
    (h : SortedByKey l) : SortedByKey (insertByKey e l) := by
  unfold SortedByKey at h ⊢
  induction l with
  | nil => simp [insertByKey]
  | cons f rest ih =>
      rw [List.pairwise_cons] at h
      by_cases hle : e.1 ≤ f.1
      · rw [insertByKey, if_pos hle, List.pairwise_cons]
        refine ⟨?_, ?_⟩
        · intro g hg
          rcases List.mem_cons.mp hg with hg | hg
          · subst hg; exact hle
          · exact le_trans hle (h.1 g hg)
        · rw [List.pairwise_cons]
          exact h
      · rw [insertByKey, if_neg hle, List.pairwise_cons]
        refine ⟨?_, ih h.2⟩
        intro g hg
        have hg0 : g ∈ e :: rest := ((insertByKey_perm e rest).mem_iff).mp hg
        rcases List.mem_cons.mp hg0 with hg1 | hg1
        · subst hg1
          exact le_of_not_le hle
        · exact h.1 g hg1

theorem sortEntries_sortedByKey {α : Type} (l : List (String × α)) :
    SortedByKey (sortEntries l) := by
  induction l with
  | nil => simp [sortEntries, SortedByKey]
  | cons e rest ih => exact insertByKey_sortedByKey e ih

/-- On entry lists with pairwise-distinct keys, a sorted permutation is
unique: this is why re-sorting permuted object entries recovers the same
list. -/
theorem eq_of_perm_of_sortedByKey {α : Type} :
    ∀ {s₁ s₂ : List (String × α)}, s₁.Perm s₂ → SortedByKey s₁ → SortedByKey s₂ →
      (s₁.map Prod.fst).Nodup → s₁ = s₂ := by
  intro s₁
  induction s₁ with
  | nil =>
      intro s₂ hp _ _ _
      exact hp.nil_eq
  | cons a t₁ ih =>
      intro s₂ hp h₁ h₂ hnd
      cases s₂ with
      | nil => exact absurd hp.symm.nil_eq (by simp)
      | cons b t₂ =>
          have hab : a = b := by
            have ha : a ∈ b :: t₂ := hp.mem_iff.mp (by simp)
            have hb : b ∈ a :: t₁ := hp.mem_iff.mpr (by simp)
            rcases List.mem_cons.mp ha with h | hat₂
            · exact h
            rcases List.mem_cons.mp hb with h | hbt₁
            · exact h.symm
            -- both strictly inside: keys must coincide, contradicting Nodup
            have h1 : a.1 ≤ b.1 := (List.pairwise_cons.mp h₁).1 b hbt₁
            have h2 : b.1 ≤ a.1 := (List.pairwise_cons.mp h₂).1 a hat₂
            have hkey : a.1 = b.1 := le_antisymm h1 h2
            have : a.1 ∈ t₁.map Prod.fst := by
              rw [hkey]
              exact List.mem_map_of_mem Prod.fst hbt₁
            exact absurd this (by
              rw [List.map_cons, List.nodup_cons] at hnd
              exact hnd.1)
          subst hab
          have hp' : t₁.Perm t₂ := hp.cons_inv
          have h₁' : SortedByKey t₁ := (List.pairwise_cons.mp h₁).2
          have h₂' : SortedByKey t₂ := (List.pairwise_cons.mp h₂).2
          have hnd' : (t₁.map Prod.fst).Nodup := by
            rw [List.map_cons, List.nodup_cons] at hnd
            exact hnd.2
          rw [ih hp' h₁' h₂' hnd']

/-- Apply a function to every value of an entry list, keeping keys. -/
def mapVal {α β : Type} (g : α → β) (l : List (String × α)) : List (String × β) :=
  l.map (fun e => (e.1, g e.2))

theorem map_fst_mapVal {α β : Type} (g : α → β) (l : List (String × α)) :
    (mapVal g l).map Prod.fst = l.map Prod.fst := by
  induction l with
  | nil => rfl
  | cons e rest ih => simp [mapVal]

theorem insertByKey_mapVal {α β : Type} (g : α → β) (e : String × α)
    (l : List (String × α)) :
    mapVal g (insertByKey e l) = insertByKey (e.1, g e.2) (mapVal g l) := by
  induction l with
  | nil => rfl
  | cons f rest ih =>
      by_cases hle : e.1 ≤ f.1
      · simp [insertByKey, hle, mapVal]
      · simp only [insertByKey, if_neg hle, mapVal, List.map_cons]
        simp only [mapVal] at ih
        rw [ih]

theorem sortEntries_mapVal {α β : Type} (g : α → β) (l : List (String × α)) :
    mapVal g (sortEntries l) = sortEntries (mapVal g l) := by
  induction l with
  | nil => rfl
  | cons e rest ih =>
      simp only [sortEntries, insertByKey_mapVal, ih]
      rfl

mutual

/-- Structural identity of JSON values up to reordering of object entries at
any depth (object keys assumed pairwise distinct, as JavaScript objects
guarantee). -/
def KeyPerm : Json → Json → Prop
  | .null, .null => True
  | .bool x, .bool y => x = y
  | .num x, .num y => x = y
  | .str x, .str y => x = y
  | .arr xs, .arr ys => KeyPermList xs ys
  | .obj xs, .obj ys =>
      ∃ zs, KeyPermEntries xs zs ∧ zs.Perm ys ∧ (xs.map Prod.fst).Nodup
  | _, _ => False

def KeyPermList : List Json → List Json → Prop
  | [], [] => True
  | x :: xs, y :: ys => KeyPerm x y ∧ KeyPermList xs ys
  | _, _ => False

def KeyPermEntries : List (String × Json) → List (String × Json) → Prop
  | [], [] => True
  | e :: es, f :: fs => (e.1 = f.1 ∧ KeyPerm e.2 f.2) ∧ KeyPermEntries es fs
  | _, _ => False

end

theorem keyPermEntries_map_fst :
    ∀ (es fs : List (String × Json)), KeyPermEntries es fs →
      es.map Prod.fst = fs.map Prod.fst := by
  intro es
  induction es with
  | nil =>
      intro fs h
      cases fs with
      | nil => rfl
      | cons f fs => simp [KeyPermEntries] at h
  | cons e rest ih =>
      intro fs h
      cases fs with
      | nil => simp [KeyPermEntries] at h
      | cons f fs =>
          rw [KeyPermEntries] at h
          simp only [List.map_cons, h.1.1]
          rw [ih fs h.2]

theorem stringifyList_eq_map (l : List Json) :
    stringifyList l = l.map stableStringify := by
  induction l with
  | nil => rfl
  | cons v rest ih => rw [stringifyList, ih, List.map_cons]

theorem stringifyEntries_eq_mapVal (l : List (String × Json)) :
    stringifyEntries l = mapVal stableStringify l := by
  induction l with
  | nil => rfl
  | cons e rest ih =>
      rw [stringifyEntries, ih]
      rfl

theorem stableStringify_arr (items : List Json) :
    stableStringify (.arr items) =
      "[" ++ String.intercalate "," (items.map stableStringify) ++ "]" := by
  rw [stableStringify, stringifyList_eq_map]

/-- The source's orientation of the object case: sort the entries by key,
then serialize each. -/
theorem stableStringify_obj (entries : List (String × Json)) :
    stableStringify (.obj entries) =
      "\x7b" ++
        String.intercalate ","
          ((sortEntries entries).map (fun e => jsonQuote e.1 ++ ":" ++ stableStringify e.2)) ++
        "\x7d" := by
  rw [stableStringify, stringifyEntries_eq_mapVal, ← sortEntries_mapVal]
  congr 1
  congr 1
  rw [mapVal, List.map_map]
  rfl

mutual

theorem keyPerm_stringify (a b : Json) (h : KeyPerm a b) :
    stableStringify a = stableStringify b := by
  cases a with
  | null => cases b <;> simp only [KeyPerm] at h <;> rfl
  | bool x => cases b <;> simp only [KeyPerm] at h <;> rw [h]
  | num x => cases b <;> simp only [KeyPerm] at h <;> rw [h]
  | str x => cases b <;> simp only [KeyPerm] at h <;> rw [h]
  | arr xs =>
      cases b <;> simp only [KeyPerm] at h
      case arr ys =>
        rw [stableStringify_arr, stableStringify_arr,
          keyPermList_stringify xs ys h]
  | obj xs =>
      cases b <;> simp only [KeyPerm] at h
      case obj ys =>
      obtain ⟨zs, hxz, hzy, hnd⟩ := h
      rw [stableStringify_obj, stableStringify_obj]
      congr 2
      have hmv : mapVal stableStringify xs = mapVal stableStringify zs :=
        keyPermEntries_stringify xs zs hxz
      have hside : ∀ (l : List (String × Json)),
          (sortEntries l).map (fun e => jsonQuote e.1 ++ ":" ++ stableStringify e.2) =
            (sortEntries (mapVal stableStringify l)).map
              (fun p => jsonQuote p.1 ++ ":" ++ p.2) := by
        intro l
        rw [← sortEntries_mapVal]
        simp [mapVal, List.map_map, Function.comp]
      rw [hside xs, hside ys]
      congr 1
      refine congrArg (List.map _) ?_
      -- two key-sorted lists that are permutations of each other with
      -- pairwise-distinct keys are equal
      have hperm : (sortEntries (mapVal stableStringify xs)).Perm
          (sortEntries (mapVal stableStringify ys)) := by
        refine ((sortEntries_perm _).trans ?_).trans (sortEntries_perm _).symm
        rw [hmv]
        simp only [mapVal]
        exact hzy.map _
      have hkeys : ((sortEntries (mapVal stableStringify xs)).map Prod.fst).Perm
          (xs.map Prod.fst) := by
        have h1 : ((sortEntries (mapVal stableStringify xs)).map Prod.fst).Perm
            ((mapVal stableStringify xs).map Prod.fst) := (sortEntries_perm _).map _
        rw [map_fst_mapVal] at h1
        exact h1
      exact eq_of_perm_of_sortedByKey hperm (sortEntries_sortedByKey _)
        (sortEntries_sortedByKey _) (hkeys.nodup_iff.mpr hnd)
termination_by sizeOf a

theorem keyPermList_stringify (xs ys : List Json) (h : KeyPermList xs ys) :
    xs.map stableStringify = ys.map stableStringify := by
  cases xs with
  | nil => cases ys <;> simp only [KeyPermList] at h <;> rfl
  | cons x xs =>
      cases ys <;> simp only [KeyPermList] at h
      case cons y ys =>
        rw [List.map_cons, List.map_cons, keyPerm_stringify x y h.1,
          keyPermList_stringify xs ys h.2]
termination_by sizeOf xs

theorem keyPermEntries_stringify (es fs : List (String × Json))
    (h : KeyPermEntries es fs) :
    mapVal stableStringify es = mapVal stableStringify fs := by
  cases es with
  | nil => cases fs <;> simp only [KeyPermEntries] at h <;> rfl
  | cons e es =>
      cases fs <;> simp only [KeyPermEntries] at h
      case cons f fs =>
        simp only [mapVal, List.map_cons]
        rw [keyPerm_stringify e.2 f.2 h.1.2, h.1.1]
        have hrec := keyPermEntries_stringify es fs h.2
        simp only [mapVal] at hrec
        rw [hrec]
termination_by sizeOf es
decreasing_by
  · subst_vars
    obtain ⟨k, v⟩ := e
    simp only [List.cons.sizeOf_spec, Prod.mk.sizeOf_spec]
    omega
  · subst_vars
    simp only [List.cons.sizeOf_spec]
    omega

end

/-- An inbound HTTP request as seen by the idempotency hooks: method, the
route pattern (`req.routeOptions.url`), path params, query params, parsed
body, and the trimmed `Idempotency-Key` header if present. -/
structure ApiRequest where
  method : String
  route : String
  params : Json := .obj []
  query : Json := .obj []
  body : Json := .null
  idemKey : Option String := none

/-- The object hashed by `idempotencyFingerprint`:
`\x7bmethod, route, params, query, body\x7d` (absent params/query default to
`\x7b\x7d`, absent body to `null`, as in the source). -/
def fingerprintSource (r : ApiRequest) : Json :=
  .obj [("method", .str r.method), ("route", .str r.route),
        ("params", r.params), ("query", r.query), ("body", r.body)]

/-- `idempotencyFingerprint`: the source computes
`sha256(stableStringify(source))`; the hash is modelled by the digested
string itself, since the program only ever compares fingerprints for
equality. -/
def idempotencyFingerprint (r : ApiRequest) : String :=
  stableStringify (fingerprintSource r)

/-- C8: two requests whose method, route, path parameters, query parameters
and bodies are structurally identical up to reordering of object keys at any
nesting depth receive the same idempotency fingerprint; equivalently,
`stableStringify` is invariant under permutation of object keys. -/
theorem idempotencyFingerprint_key_order_invariant
    (r₁ r₂ : ApiRequest)
    (hm : r₁.method = r₂.method) (hr : r₁.route = r₂.route)
    (hp : KeyPerm r₁.params r₂.params) (hq : KeyPerm r₁.query r₂.query)
    (hb : KeyPerm r₁.body r₂.body) :
    idempotencyFingerprint r₁ = idempotencyFingerprint r₂ ∧
      ∀ a b : Json, KeyPerm a b → stableStringify a = stableStringify b := by
  refine ⟨?_, keyPerm_stringify⟩
  apply keyPerm_stringify
  show KeyPerm (fingerprintSource r₁) (fingerprintSource r₂)
  unfold fingerprintSource
  simp only [KeyPerm]
  refine ⟨[("method", .str r₂.method), ("route", .str r₂.route),
    ("params", r₂.params), ("query", r₂.query), ("body", r₂.body)], ?_, .refl _, ?_⟩
  · simp only [KeyPermEntries, KeyPerm]
    exact ⟨⟨trivial, hm⟩, ⟨trivial, hr⟩, ⟨trivial, hp⟩, ⟨trivial, hq⟩,
      ⟨trivial, hb⟩, trivial⟩
  · simp

theorem idempotencyFingerprint_key_order_invariant_witness :
    idempotencyFingerprint
        ⟨"POST", "/api/v1/stories", .obj [], .obj [],
          .obj [("priority", .str "high"), ("title", .str "t")], none⟩ =
      idempotencyFingerprint
        ⟨"POST", "/api/v1/stories", .obj [], .obj [],
          .obj [("title", .str "t"), ("priority", .str "high")], none⟩ :=
  (idempotencyFingerprint_key_order_invariant
    ⟨"POST", "/api/v1/stories", .obj [], .obj [],
      .obj [("priority", .str "high"), ("title", .str "t")], none⟩
    ⟨"POST", "/api/v1/stories", .obj [], .obj [],
      .obj [("title", .str "t"), ("priority", .str "high")], none⟩
    rfl rfl
    (by
      simp only [KeyPerm]
      exact ⟨[], by simp only [KeyPermEntries], .refl _, by simp⟩)
    (by
      simp only [KeyPerm]
      exact ⟨[], by simp only [KeyPermEntries], .refl _, by simp⟩)
    (by
      simp only [KeyPerm]
      refine ⟨[("priority", .str "high"), ("title", .str "t")], ?_, ?_, ?_⟩
      · simp only [KeyPermEntries, KeyPerm]
        exact ⟨⟨trivial, trivial⟩, ⟨trivial, trivial⟩, trivial⟩
      · exact List.Perm.swap _ _ _
      · simp)).1

/-! ## Dependency graph engine -/

/-- A `story_dependency` row restricted to the columns the graph engine
reads (`id`, `type`, `createdAt` are never consulted by the cycle check or
the blocked computation). -/
structure Dep where
  storyId : String
  dependsOnStoryId : String
deriving DecidableEq, Repr

/-- The neighbours enumerated by one BFS expansion step:
`SELECT dependsOnStoryId FROM story_dependency WHERE storyId = current`. -/
def depSuccessors (edges : List Dep) (current : String) : List String :=
  (edges.filter (fun e => e.storyId = current)).map (fun e => e.dependsOnStoryId)

theorem filter_unvisited_partition (edges : List Dep) (visited : List String)
    (c : String) (hc : c ∉ visited) :
    (edges.filter (fun e => decide (e.storyId ∉ visited))).length =
      (edges.filter (fun e => decide (e.storyId ∉ c :: visited))).length +
        (edges.filter (fun e => e.storyId = c)).length := by
  induction edges with
  | nil => simp
  | cons e tl ih =>
      simp only [List.filter_cons, decide_eq_true_eq]
      by_cases hec : e.storyId = c
      · have h1 : e.storyId ∉ visited := hec ▸ hc
        have h2 : ¬ e.storyId ∉ c :: visited := by simp [hec]
        rw [if_pos h1, if_neg h2, if_pos hec]
        simp only [List.length_cons]
        omega
      · by_cases hev : e.storyId ∈ visited
        · have h1 : ¬ e.storyId ∉ visited := not_not_intro hev
          have h2 : ¬ e.storyId ∉ c :: visited :=
            not_not_intro (List.mem_cons_of_mem c hev)
          rw [if_neg h1, if_neg h2, if_neg hec]
          exact ih
        · have h2 : e.storyId ∉ c :: visited := by
            intro hmem
            rcases List.mem_cons.mp hmem with h | h
            · exact hec h
            · exact hev h
          rw [if_pos hev, if_pos h2, if_neg hec]
          simp only [List.length_cons]
          omega

/-- The BFS loop of `createsDependencyCycle`: FIFO queue with a visited set,
returning `true` as soon as `target` is dequeued.  The source's
`if (!current) continue` guard skips the empty string (the only falsy
non-undefined string). -/
def bfsReaches (edges : List Dep) (target : String) :
    List String → List String → Bool
  | [], _ => false
  | c :: rest, visited =>
      if c = "" then bfsReaches edges target rest visited
      else if c = target then true
      else if c ∈ visited then bfsReaches edges target rest visited
      else bfsReaches edges target (rest ++ depSuccessors edges c) (c :: visited)
termination_by queue visited =>
  queue.length + (edges.filter (fun e => decide (e.storyId ∉ visited))).length
decreasing_by
  · simp only [List.length_cons]
    omega
  · simp only [List.length_cons]
    omega
  · simp only [List.length_append, List.length_cons]
    have hp := filter_unvisited_partition edges visited c (by assumption)
    have hs : (depSuccessors edges c).length =
        (edges.filter (fun e => e.storyId = c)).length := by
      simp [depSuccessors]
    omega

/-- `createsDependencyCycle(storyId, dependsOnStoryId)`: BFS from
`dependsOnStoryId` along dependency edges looking for `storyId`. -/
def createsDependencyCycle (edges : List Dep) (storyId dependsOnStoryId : String) :
    Bool :=
  bfsReaches edges storyId [dependsOnStoryId] []

/-- Step-indexed variant of the BFS: `none` means the step budget was
exhausted before the loop finished.  Used to bound the running time of
`createsDependencyCycle`. -/
def bfsReachesFuel (edges : List Dep) (target : String) :
    Nat → List String → List String → Option Bool
  | _, [], _ => some false
  | 0, _ :: _, _ => none
  | fuel + 1, c :: rest, visited =>
      if c = "" then bfsReachesFuel edges target fuel rest visited
      else if c = target then some true
      else if c ∈ visited then bfsReachesFuel edges target fuel rest visited
      else bfsReachesFuel edges target fuel (rest ++ depSuccessors edges c) (c :: visited)

theorem bfsReachesFuel_eq (edges : List Dep) (target : String) :
    ∀ (fuel : Nat) (queue visited : List String),
      queue.length + (edges.filter (fun e => decide (e.storyId ∉ visited))).length ≤ fuel →
      bfsReachesFuel edges target fuel queue visited =
        some (bfsReaches edges target queue visited) := by
  intro fuel
  induction fuel with
  | zero =>
      intro queue visited h
      cases queue with
      | nil => rw [bfsReachesFuel, bfsReaches]
      | cons c rest => simp at h
  | succ fuel ih =>
      intro queue visited h
      cases queue with
      | nil => rw [bfsReachesFuel, bfsReaches]
      | cons c rest =>
          rw [bfsReachesFuel, bfsReaches]
          by_cases h1 : c = ""
          · rw [if_pos h1, if_pos h1]
            apply ih
            simp only [List.length_cons] at h
            omega
          · rw [if_neg h1, if_neg h1]
            by_cases h2 : c = target
            · rw [if_pos h2, if_pos h2]
            · rw [if_neg h2, if_neg h2]
              by_cases h3 : c ∈ visited
              · rw [if_pos h3, if_pos h3]
                apply ih
                simp only [List.length_cons] at h
                omega
              · rw [if_neg h3, if_neg h3]
                apply ih
                have hp := filter_unvisited_partition edges visited c h3
                have hs : (depSuccessors edges c).length =
                    (edges.filter (fun e => e.storyId = c)).length := by
                  simp [depSuccessors]
                simp only [List.length_append, List.length_cons] at h ⊢
                omega

/-- C10: `createsDependencyCycle` terminates on every finite edge relation
and every pair of story ids — including edge relations that already contain
cycles — because the visited set lets each story id be expanded at most
once.  Concretely, the loop finishes within `1 + |edges|` dequeue steps:
running the step-indexed BFS with that budget never exhausts it and
computes exactly the value of the total function `createsDependencyCycle`
(itself defined by well-founded recursion on the unvisited edge count). -/
theorem createsDependencyCycle_terminates (edges : List Dep)
    (storyId dependsOnStoryId : String) :
    bfsReachesFuel edges storyId (1 + edges.length) [dependsOnStoryId] [] =
      some (createsDependencyCycle edges storyId dependsOnStoryId) := by
  rw [createsDependencyCycle]
  apply bfsReachesFuel_eq
  simp

/-- One directed dependency hop: some edge row leads from `x` to `y`
(`x` depends on `y`). -/
def EdgeStep (edges : List Dep) (x y : String) : Prop :=
  ∃ e ∈ edges, e.storyId = x ∧ e.dependsOnStoryId = y

/-- Directed reachability along dependency edges (zero or more hops). -/
def Reaches (edges : List Dep) : String → String → Prop :=
  Relation.ReflTransGen (EdgeStep edges)

theorem edgeStep_iff_mem_depSuccessors (edges : List Dep) (c w : String) :
    EdgeStep edges c w ↔ w ∈ depSuccessors edges c := by
  constructor
  · rintro ⟨e, he, h1, h2⟩
    rw [depSuccessors]
    subst h2
    exact List.mem_map_of_mem _ (List.mem_filter.mpr ⟨he, by simp [h1]⟩)
  · intro hw
    rw [depSuccessors] at hw
    rcases List.mem_map.mp hw with ⟨e, he, h2⟩
    rcases List.mem_filter.mp he with ⟨hmem, hsrc⟩
    exact ⟨e, hmem, by simpa using hsrc, h2⟩

theorem bfsReaches_sound (edges : List Dep) (target : String) :
    ∀ (queue visited : List String),
      bfsReaches edges target queue visited = true →
        ∃ s ∈ queue, Reaches edges s target := by
  intro queue visited
  induction queue, visited using bfsReaches.induct edges target with
  | case1 visited =>
      intro h
      rw [bfsReaches] at h
      exact absurd h (by simp)
  | case2 rest visited ih =>
      intro h
      rw [bfsReaches, if_pos rfl] at h
      rcases ih h with ⟨s, hs, hr⟩
      exact ⟨s, List.mem_cons_of_mem _ hs, hr⟩
  | case3 rest visited hempty =>
      intro _
      exact ⟨target, List.mem_cons_self target rest, Relation.ReflTransGen.refl⟩
  | case4 c rest visited hempty htgt hvis ih =>
      intro h
      rw [bfsReaches, if_neg hempty, if_neg htgt, if_pos hvis] at h
      rcases ih h with ⟨s, hs, hr⟩
      exact ⟨s, List.mem_cons_of_mem c hs, hr⟩
  | case5 c rest visited hempty htgt hvis ih =>
      intro h
      rw [bfsReaches, if_neg hempty, if_neg htgt, if_neg hvis] at h
      rcases ih h with ⟨s, hs, hr⟩
      rcases List.mem_append.mp hs with hs | hs
      · exact ⟨s, List.mem_cons_of_mem c hs, hr⟩
      · have hstep : EdgeStep edges c s := (edgeStep_iff_mem_depSuccessors edges c s).mpr hs
        exact ⟨c, List.mem_cons_self c rest, Relation.ReflTransGen.head hstep hr⟩

/-- If every visited node's successors stay inside the visited set and the
target is not visited, no visited node reaches the target. -/
theorem reach_escape (edges : List Dep) (target : String) (visited : List String)
    (hInv : ∀ v ∈ visited, v ≠ target ∧ ∀ w, EdgeStep edges v w → w ∈ visited) :
    ∀ s ∈ visited, ¬ Reaches edges s target := by
  have key : ∀ s, Reaches edges s target → s ∈ visited → False := by
    intro s hr
    induction hr using Relation.ReflTransGen.head_induction_on with
    | refl => intro hs; exact (hInv _ hs).1 rfl
    | head hstep htail ih =>
        intro hs
        exact ih ((hInv _ hs).2 _ hstep)
  exact fun s hs hr => key s hr hs

theorem bfsReaches_complete (edges : List Dep) (target : String)
    (hids : ∀ e ∈ edges, e.storyId ≠ "" ∧ e.dependsOnStoryId ≠ "")
    (htgt : target ≠ "") :
    ∀ (queue visited : List String),
      (∀ v ∈ visited, v ≠ target ∧ ∀ w, EdgeStep edges v w → w ∈ queue ∨ w ∈ visited) →
      ∀ s, (s ∈ queue ∨ s ∈ visited) → Reaches edges s target →
        bfsReaches edges target queue visited = true := by
  intro queue visited
  induction queue, visited using bfsReaches.induct edges target with
  | case1 visited =>
      intro hInv s hs hr
      have hs' : s ∈ visited := by
        rcases hs with h | h
        · exact absurd h (List.not_mem_nil s)
        · exact h
      have hInv' : ∀ v ∈ visited, v ≠ target ∧ ∀ w, EdgeStep edges v w → w ∈ visited := by
        intro v hv
        refine ⟨(hInv v hv).1, fun w hw => ?_⟩
        rcases (hInv v hv).2 w hw with h | h
        · exact absurd h (List.not_mem_nil w)
        · exact h
      exact absurd hr (reach_escape edges target visited hInv' s hs')
  | case2 rest visited ih =>
      intro hInv s hs hr
      rw [bfsReaches, if_pos rfl]
      have hInv' : ∀ v ∈ visited, v ≠ target ∧
          ∀ w, EdgeStep edges v w → w ∈ rest ∨ w ∈ visited := by
        intro v hv
        refine ⟨(hInv v hv).1, fun w hw => ?_⟩
        rcases (hInv v hv).2 w hw with h | h
        · rcases List.mem_cons.mp h with h | h
          · rcases hw with ⟨e, he, _, h2⟩
            exact absurd (h ▸ h2) (hids e he).2
          · exact Or.inl h
        · exact Or.inr h
      have hs' : s ∈ rest ∨ s ∈ visited := by
        rcases hs with h | h
        · rcases List.mem_cons.mp h with h | h
          · exfalso
            subst h
            rcases Relation.ReflTransGen.cases_head hr with h | ⟨c, hc, _⟩
            · exact htgt h.symm
            · rcases hc with ⟨e, he, h1, _⟩
              exact (hids e he).1 h1
          · exact Or.inl h
        · exact Or.inr h
      exact ih hInv' s hs' hr
  | case3 rest visited hempty =>
      intro _ _ _ _
      rw [bfsReaches, if_neg hempty, if_pos rfl]
  | case4 c rest visited hempty hctgt hvis ih =>
      intro hInv s hs hr
      rw [bfsReaches, if_neg hempty, if_neg hctgt, if_pos hvis]
      have hInv' : ∀ v ∈ visited, v ≠ target ∧
          ∀ w, EdgeStep edges v w → w ∈ rest ∨ w ∈ visited := by
        intro v hv
        refine ⟨(hInv v hv).1, fun w hw => ?_⟩
        rcases (hInv v hv).2 w hw with h | h
        · rcases List.mem_cons.mp h with h | h
          · exact Or.inr (h ▸ hvis)
          · exact Or.inl h
        · exact Or.inr h
      have hs' : s ∈ rest ∨ s ∈ visited := by
        rcases hs with h | h
        · rcases List.mem_cons.mp h with h | h
          · exact Or.inr (h ▸ hvis)
          · exact Or.inl h
        · exact Or.inr h
      exact ih hInv' s hs' hr
  | case5 c rest visited hempty hctgt hvis ih =>
      intro hInv s hs hr
      rw [bfsReaches, if_neg hempty, if_neg hctgt, if_neg hvis]
      have hInv' : ∀ v ∈ c :: visited, v ≠ target ∧
          ∀ w, EdgeStep edges v w →
            w ∈ rest ++ depSuccessors edges c ∨ w ∈ c :: visited := by
        intro v hv
        rcases List.mem_cons.mp hv with hv | hv
        · subst hv
          refine ⟨hctgt, fun w hw => ?_⟩
          exact Or.inl (List.mem_append_right rest
            ((edgeStep_iff_mem_depSuccessors edges v w).mp hw))
        · refine ⟨(hInv v hv).1, fun w hw => ?_⟩
          rcases (hInv v hv).2 w hw with h | h
          · rcases List.mem_cons.mp h with h | h
            · exact Or.inr (h ▸ List.mem_cons_self c visited)
            · exact Or.inl (List.mem_append_left _ h)
          · exact Or.inr (List.mem_cons_of_mem c h)
      have hs' : s ∈ rest ++ depSuccessors edges c ∨ s ∈ c :: visited := by
        rcases hs with h | h
        · rcases List.mem_cons.mp h with h | h
          · exact Or.inr (h ▸ List.mem_cons_self c visited)
          · exact Or.inl (List.mem_append_left _ h)
        · exact Or.inr (List.mem_cons_of_mem c h)
      exact ih hInv' s hs' hr

/-- BFS correctness: `createsDependencyCycle storyId dependsOnStoryId`
returns `true` exactly when a directed path already leads from
`dependsOnStoryId` back to `storyId` (story ids are non-empty strings;
`""` is excluded because the source's falsy-guard skips it). -/
theorem createsDependencyCycle_iff_reaches (edges : List Dep)
    (storyId dependsOnStoryId : String)
    (hids : ∀ e ∈ edges, e.storyId ≠ "" ∧ e.dependsOnStoryId ≠ "")
    (hsid : storyId ≠ "") :
    createsDependencyCycle edges storyId dependsOnStoryId = true ↔
      Reaches edges dependsOnStoryId storyId := by
  constructor
  · intro h
    rcases bfsReaches_sound edges storyId [dependsOnStoryId] [] h with ⟨s, hs, hr⟩
    rcases List.mem_cons.mp hs with hs | hs
    · exact hs ▸ hr
    · exact absurd hs (List.not_mem_nil s)
  · intro hr
    exact bfsReaches_complete edges storyId hids hsid [dependsOnStoryId] []
      (by intro v hv; exact absurd hv (List.not_mem_nil v))
      dependsOnStoryId (Or.inl (List.mem_cons_self _ _)) hr

/-- A dependency-edge set is acyclic: no edge starts a directed path that
returns to its source. -/
def GraphAcyclic (edges : List Dep) : Prop :=
  ∀ x y, EdgeStep edges x y → ¬ Reaches edges y x

theorem reaches_cons_decompose (E : List Dep) (a b : String) :
    ∀ u v, Reaches (⟨a, b⟩ :: E) u v →
      Reaches E u v ∨ (Reaches E u a ∧ Reaches E b v) := by
  intro u v h
  induction h using Relation.ReflTransGen.head_induction_on with
  | refl => exact Or.inl Relation.ReflTransGen.refl
  | head hstep htail ih =>
      rcases hstep with ⟨e, he, h1, h2⟩
      rcases List.mem_cons.mp he with he | he
      · subst he
        obtain rfl := h1.symm
        obtain rfl := h2.symm
        rcases ih with ihh | ihh
        · exact Or.inr ⟨Relation.ReflTransGen.refl, ihh⟩
        · exact Or.inr ⟨Relation.ReflTransGen.refl, ihh.2⟩
      · rcases ih with ihh | ⟨ih1, ih2⟩
        · exact Or.inl (Relation.ReflTransGen.head ⟨e, he, h1, h2⟩ ihh)
        · exact Or.inr ⟨Relation.ReflTransGen.head ⟨e, he, h1, h2⟩ ih1, ih2⟩

/-- Adding an edge `(a, b)` to an acyclic edge set keeps it acyclic
provided no directed path already leads from `b` back to `a` — exactly the
condition `createsDependencyCycle` checks. -/
theorem graphAcyclic_insert (E : List Dep) (a b : String)
    (hacyc : GraphAcyclic E) (hnr : ¬ Reaches E b a) :
    GraphAcyclic (⟨a, b⟩ :: E) := by
  intro x y hxy hyx
  have hdec := reaches_cons_decompose E a b y x hyx
  rcases hxy with ⟨e, he, h1, h2⟩
  rcases List.mem_cons.mp he with he | he
  · subst he
    obtain rfl := h1.symm
    obtain rfl := h2.symm
    rcases hdec with h | ⟨h3, h4⟩
    · exact hnr h
    · exact hnr h3
  · have hxyE : EdgeStep E x y := ⟨e, he, h1, h2⟩
    rcases hdec with h | ⟨h3, h4⟩
    · exact hacyc x y hxyE h
    · exact hnr (h4.trans (Relation.ReflTransGen.head hxyE h3))

/-! ## Domain state -/

/-- `status` ∈ \x7bwaiting, in_progress, completed\x7d. -/
inductive StoryStatus where
  | waiting
  | in_progress
  | completed
deriving DecidableEq, Repr

/-- A `story` row.  Dates (`dueAt`) are kept as their raw ISO strings:
no claim depends on date arithmetic. -/
structure Story where
  id : String
  projectId : String
  sprintId : Option String := none
  title : String := ""
  description : Option String := none
  acceptanceCriteria : Option String := none
  status : StoryStatus := .waiting
  priority : String := "med"
  blocked : Bool := false
  points : Option Int := none
  assignee : Option String := none
  dueAt : Option String := none
deriving DecidableEq, Repr

/-- A `sprint` row restricted to the columns the handlers consult. -/
structure Sprint where
  id : String
  projectId : String
  status : String := "planned"
deriving DecidableEq, Repr

/-- An `audit_event` row as written by `logAudit` (payload omitted;
`source` is always `"api"`). -/
structure AuditEvent where
  eventType : String
  entityType : String
  entityId : String
  projectId : Option String := none
deriving DecidableEq, Repr

/-- The relational store as the handlers see it. -/
structure Db where
  stories : List Story := []
  deps : List Dep := []
  sprints : List Sprint := []
  audit : List AuditEvent := []
deriving DecidableEq, Repr

/-- `prisma.story.findUnique(\x7bwhere: \x7bid\x7d\x7d)`. -/
def findStory (db : Db) (id : String) : Option Story :=
  db.stories.find? (fun s => s.id = id)

/-- `prisma.sprint.findUnique(\x7bwhere: \x7bid\x7d\x7d)`. -/
def findSprint (db : Db) (id : String) : Option Sprint :=
  db.sprints.find? (fun s => s.id = id)

/-- `prisma.story.update(\x7bwhere: \x7bid\x7d, data\x7d)` (no-op when the id is
absent; every call site checks existence first). -/
def updateStory (db : Db) (id : String) (f : Story → Story) : Db :=
  { db with stories := db.stories.map (fun s => if s.id = id then f s else s) }

/-- `logAudit`: appends one audit row (failures are swallowed in the source,
so the append always succeeds in the model). -/
def logAudit (db : Db) (eventType entityType entityId : String)
    (projectId : Option String) : Db :=
  { db with audit := db.audit ++ [⟨eventType, entityType, entityId, projectId⟩] }

/-- The `blocked` value `refreshBlocked` computes:
`deps.some((dep) => dep.dependsOn.status !== 'completed')` over the story's
direct dependency edges.  The join target always exists (FK with cascade
delete); a dangling edge would count as blocking. -/
def computeBlocked (db : Db) (storyId : String) : Bool :=
  (db.deps.filter (fun d => d.storyId = storyId)).any
    (fun d => ((findStory db d.dependsOnStoryId).map Story.status) ≠ some .completed)

/-- `refreshBlocked(storyId)`: recompute and store the `blocked` flag. -/
def refreshBlocked (db : Db) (storyId : String) : Db :=
  updateStory db storyId (fun s => { s with blocked := computeBlocked db storyId })

/-- `refreshBlockedForDependents(dependsOnStoryId)`: refresh every story
with a direct edge onto the changed story.  The source runs the refreshes
with `Promise.all`; the model folds them sequentially, which agrees because
the refreshed story ids are pairwise distinct (unique edge pairs) and a
refresh never changes a status or an edge, only a `blocked` flag. -/
def refreshBlockedForDependents (db : Db) (dependsOnStoryId : String) : Db :=
  (db.deps.filter (fun d => d.dependsOnStoryId = dependsOnStoryId)).foldl
    (fun acc d => refreshBlocked acc d.storyId) db

/-- Status + error string of a route's HTTP reply. -/
structure RouteReply where
  status : Nat
  errMsg : Option String := none
deriving DecidableEq, Repr

/-- `POST /api/v1/stories/:id/dependencies`.  The generated dependency row
id is not modelled; the audit `entityId` records the edge pair instead.
The `type` column (default `"blocks"`) is never read back and is omitted. -/
def addDependency (db : Db) (id dependsOnStoryId : String) : Db × RouteReply :=
  match findStory db id with
  | none => (db, ⟨404, some "story not found"⟩)
  | some story =>
      if dependsOnStoryId = "" then
        (db, ⟨400, some "dependsOnStoryId is required"⟩)
      else if dependsOnStoryId = id then
        (db, ⟨400, some "story cannot depend on itself"⟩)
      else
        match findStory db dependsOnStoryId with
        | none => (db, ⟨404, some "dependsOn story not found"⟩)
        | some dependencyTarget =>
            if dependencyTarget.projectId ≠ story.projectId then
              (db, ⟨400, some "dependencies must be within the same project"⟩)
            else if createsDependencyCycle db.deps id dependsOnStoryId then
              (db, ⟨400, some "dependency would create a cycle"⟩)
            else if db.deps.any
                (fun d => d.storyId = id ∧ d.dependsOnStoryId = dependsOnStoryId) then
              -- unique `(storyId, dependsOnStoryId)` index: P2002 → 409
              (db, ⟨409, some "dependency already exists"⟩)
            else
              let db1 : Db := { db with deps := ⟨id, dependsOnStoryId⟩ :: db.deps }
              let db2 := refreshBlocked db1 id
              let db3 := logAudit db2 "dependency.created" "story_dependency"
                (id ++ "->" ++ dependsOnStoryId) (some story.projectId)
              (db3, ⟨201, none⟩)

/-- C4: for existing stories `a` and `b` (with non-empty uuids and
well-formed edge rows), `POST /stories/:a/dependencies \x7bdependsOnStoryId: b\x7d`
replies 400 whenever `a = b`, the two stories live in different projects,
or a directed path already leads from `b` back to `a`; and whenever the
edge set was acyclic and the route replies 201, the edge set stays acyclic. -/
theorem addDependency_rejects_cycles (db : Db) (a b : String) (sa sb : Story)
    (ha : findStory db a = some sa) (hb : findStory db b = some sb)
    (hids : ∀ e ∈ db.deps, e.storyId ≠ "" ∧ e.dependsOnStoryId ≠ "")
    (ha0 : a ≠ "") (hb0 : b ≠ "") :
    ((a = b ∨ sa.projectId ≠ sb.projectId ∨ Reaches db.deps b a) →
      (addDependency db a b).2.status = 400) ∧
    (GraphAcyclic db.deps → (addDependency db a b).2.status = 201 →
      GraphAcyclic (addDependency db a b).1.deps) := by
  have hbfs := createsDependencyCycle_iff_reaches db.deps a b hids ha0
  constructor
  · intro hcond
    by_cases hab : b = a
    · simp [addDependency, ha, ha0, hb0, hab]
    · by_cases hproj : sb.projectId = sa.projectId
      · by_cases hreach : Reaches db.deps b a
        · have hcyc : createsDependencyCycle db.deps a b = true := hbfs.mpr hreach
          simp [addDependency, ha, hb, hb0, hab, hproj, hcyc]
        · rcases hcond with h | h | h
          · exact absurd h (fun he => hab he.symm)
          · exact absurd hproj.symm h
          · exact absurd h hreach
      · simp [addDependency, ha, hb, hb0, hab, hproj]
  · intro hacyc hstatus
    by_cases hab : b = a
    · simp [addDependency, ha, ha0, hb0, hab] at hstatus
    · by_cases hproj : sb.projectId = sa.projectId
      · by_cases hcyc : createsDependencyCycle db.deps a b = true
        · simp [addDependency, ha, hb, hb0, hab, hproj, hcyc] at hstatus
        · by_cases hdup : ∃ x ∈ db.deps, x.storyId = a ∧ x.dependsOnStoryId = b
          · simp [addDependency, ha, hb, hb0, hab, hproj, hcyc, hdup] at hstatus
          · have hdeps : (addDependency db a b).1.deps = ⟨a, b⟩ :: db.deps := by
              simp [addDependency, ha, hb, hb0, hab, hproj, hcyc, hdup,
                logAudit, refreshBlocked, updateStory]
            rw [hdeps]
            exact graphAcyclic_insert db.deps a b hacyc
              (fun hr => hcyc (hbfs.mpr hr))
      · simp [addDependency, ha, hb, hb0, hab, hproj] at hstatus

theorem addDependency_rejects_cycles_witness :
    (addDependency
        { stories := [{ id := "s1", projectId := "p" }, { id := "s2", projectId := "p" }],
          deps := [⟨"s2", "s1"⟩] }
        "s1" "s2").2.status = 400 :=
  (addDependency_rejects_cycles
      { stories := [{ id := "s1", projectId := "p" }, { id := "s2", projectId := "p" }],
        deps := [⟨"s2", "s1"⟩] }
      "s1" "s2" { id := "s1", projectId := "p" } { id := "s2", projectId := "p" }
      rfl rfl (by decide) (by decide) (by decide)).1
    (Or.inr (Or.inr (Relation.ReflTransGen.single ⟨⟨"s2", "s1"⟩, by simp, rfl, rfl⟩)))

theorem find?_map_update (l : List Story) (sid : String) (f : Story → Story)
    (hf : ∀ s, (f s).id = s.id) :
    (l.map (fun s => if s.id = sid then f s else s)).find? (fun s => s.id = sid) =
      (l.find? (fun s => s.id = sid)).map f := by
  induction l with
  | nil => rfl
  | cons s rest ih =>
      simp only [List.map_cons, List.find?_cons]
      by_cases h : s.id = sid
      · rw [if_pos h]
        have h1 : (f s).id = sid := by rw [hf]; exact h
        simp [h1, h]
      · rw [if_neg h]
        simp [h, ih]

theorem findStory_refreshBlocked (db : Db) (sid : String) :
    findStory (refreshBlocked db sid) sid =
      (findStory db sid).map
        (fun s => { s with blocked := computeBlocked db sid }) := by
  rw [refreshBlocked, updateStory, findStory, findStory]
  exact find?_map_update db.stories sid _ (fun s => rfl)

/-- C6: after `refreshBlocked(storyId)` the stored `blocked` flag is `true`
exactly when some direct dependency edge of the story targets a story whose
status is not `completed`, and `false` otherwise — in particular `false`
when the story has no dependency edges at all.  (The story exists and its
edges' join targets exist, as the FK constraints guarantee.) -/
theorem refreshBlocked_blocked_iff (db : Db) (sid : String) (s : Story)
    (hs : findStory db sid = some s)
    (hFK : ∀ d ∈ db.deps, d.storyId = sid →
      ∃ t, findStory db d.dependsOnStoryId = some t) :
    ((findStory (refreshBlocked db sid) sid).map Story.blocked = some true ↔
      ∃ d ∈ db.deps, d.storyId = sid ∧
        ∃ t, findStory db d.dependsOnStoryId = some t ∧
          t.status ≠ StoryStatus.completed) ∧
    ((findStory (refreshBlocked db sid) sid).map Story.blocked = some false ↔
      ¬ ∃ d ∈ db.deps, d.storyId = sid ∧
        ∃ t, findStory db d.dependsOnStoryId = some t ∧
          t.status ≠ StoryStatus.completed) := by
  have hfind : findStory (refreshBlocked db sid) sid =
      some { s with blocked := computeBlocked db sid } := by
    rw [findStory_refreshBlocked, hs]
    rfl
  have hchar : computeBlocked db sid = true ↔
      ∃ d ∈ db.deps, d.storyId = sid ∧
        ∃ t, findStory db d.dependsOnStoryId = some t ∧
          t.status ≠ StoryStatus.completed := by
    rw [computeBlocked, List.any_eq_true]
    constructor
    · rintro ⟨d, hd, hcond⟩
      rcases List.mem_filter.mp hd with ⟨hdmem, hdsid⟩
      have hdsid' : d.storyId = sid := by simpa using hdsid
      obtain ⟨t, ht⟩ := hFK d hdmem hdsid'
      refine ⟨d, hdmem, hdsid', t, ht, ?_⟩
      rw [ht] at hcond
      simpa using hcond
    · rintro ⟨d, hd, hdsid, t, ht, htne⟩
      refine ⟨d, List.mem_filter.mpr ⟨hd, by simpa using hdsid⟩, ?_⟩
      rw [ht]
      simpa using htne
  rw [hfind]
  constructor
  · rw [← hchar]
    constructor
    · intro h
      simpa using h
    · intro h
      simpa using h
  · rw [← hchar]
    constructor
    · intro h hcb
      have : computeBlocked db sid = false := by simpa using h
      rw [hcb] at this
      exact Bool.true_eq_false.mp this
    · intro h
      have : computeBlocked db sid = false := by
        cases hcb : computeBlocked db sid
        · rfl
        · exact absurd hcb h
      simp [this]

theorem refreshBlocked_blocked_iff_witness :
    (findStory
        (refreshBlocked
          { stories := [{ id := "s1", projectId := "p" },
              { id := "s2", projectId := "p" }],
            deps := [⟨"s2", "s1"⟩] }
          "s2")
        "s2").map Story.blocked = some true :=
  (refreshBlocked_blocked_iff
      { stories := [{ id := "s1", projectId := "p" },
          { id := "s2", projectId := "p" }],
        deps := [⟨"s2", "s1"⟩] }
      "s2" { id := "s2", projectId := "p" } rfl
      (by
        intro d hd hsid
        rw [List.mem_singleton] at hd
        subst hd
        exact ⟨{ id := "s1", projectId := "p" }, rfl⟩)).1.mpr
    ⟨⟨"s2", "s1"⟩, by simp, rfl, { id := "s1", projectId := "p" }, rfl, by decide⟩

/-! ## PATCH /api/v1/stories/:id -/

/-- The body accepted by `PATCH /api/v1/stories/:id`.  An outer `none`
means the field is absent (`undefined`: leave unchanged); for `sprintId`
and `dueAt`, `some none` is an explicit JSON `null`. -/
structure StoryPatchBody where
  title : Option String := none
  description : Option String := none
  acceptanceCriteria : Option String := none
  status : Option StoryStatus := none
  priority : Option String := none
  blocked : Option Bool := none
  points : Option Int := none
  assignee : Option String := none
  sprintId : Option (Option String) := none
  dueAt : Option (Option String) := none
deriving DecidableEq, Repr

/-- `PATCH /api/v1/stories/:id`.  Note: unlike `POST /stories/:id/move`,
this handler never calls `refreshBlockedForDependents`, even when the body
changes `status`. -/
def patchStory (db : Db) (id : String) (body : StoryPatchBody) : Db × RouteReply :=
  match findStory db id with
  | none => (db, ⟨404, some "story not found"⟩)
  | some existing =>
      let sprintCheck : Option RouteReply :=
        match body.sprintId with
        | none => none
        | some none => none
        | some (some sid) =>
            match findSprint db sid with
            | none => some ⟨404, some "sprint not found"⟩
            | some sprint =>
                if sprint.projectId ≠ existing.projectId then
                  some ⟨400, some "sprint must belong to the same project"⟩
                else if sprint.status = "closed" then
                  some ⟨409, some "cannot move story into closed sprint"⟩
                else none
      match sprintCheck with
      | some r => (db, r)
      | none =>
          let updated : Story :=
            { existing with
              title := body.title.getD existing.title
              description :=
                match body.description with
                | none => existing.description
                | some d => some d
              acceptanceCriteria :=
                match body.acceptanceCriteria with
                | none => existing.acceptanceCriteria
                | some v => some v
              status := body.status.getD existing.status
              priority := body.priority.getD existing.priority
              blocked := body.blocked.getD existing.blocked
              points :=
                match body.points with
                | none => existing.points
                | some p => some p
              assignee :=
                match body.assignee with
                | none => existing.assignee
                | some v => some v
              sprintId :=
                match body.sprintId with
                | none => existing.sprintId
                | some v => v
              dueAt :=
                match body.dueAt with
                | none => existing.dueAt
                | some v => v }
          let db1 := updateStory db id (fun _ => updated)
          let db2 := logAudit db1 "story.updated" "story" id (some existing.projectId)
          (db2, ⟨200, none⟩)

/-- The spec's stored-`blocked` invariant: every story's stored flag equals
the recomputed one-hop value. -/
def blockedInvariant (db : Db) : Bool :=
  db.stories.all (fun s => s.blocked == computeBlocked db s.id)

/-- C5 (code bug): `PATCH /api/v1/stories/:id` changes a story's status
without refreshing the `blocked` flag of its dependents.  Concretely: `s2`
depends on `s1` (stored `blocked = true`, correctly); patching `s1` to
`completed` succeeds with 200, after which `s2`'s stored `blocked` is still
`true` although the recomputed value is `false` — the stored flag is stale
and the spec's invariant is violated. -/
theorem patchStory_leaves_blocked_stale :
    blockedInvariant
        { stories := [{ id := "s1", projectId := "p" },
            { id := "s2", projectId := "p", blocked := true }],
          deps := [⟨"s2", "s1"⟩] } = true ∧
    (patchStory
        { stories := [{ id := "s1", projectId := "p" },
            { id := "s2", projectId := "p", blocked := true }],
          deps := [⟨"s2", "s1"⟩] }
        "s1" { status := some .completed }).2.status = 200 ∧
    ((patchStory
        { stories := [{ id := "s1", projectId := "p" },
            { id := "s2", projectId := "p", blocked := true }],
          deps := [⟨"s2", "s1"⟩] }
        "s1" { status := some .completed }).1 |>
      fun db1 =>
        (findStory db1 "s1").map Story.status = some .completed ∧
        (findStory db1 "s2").map Story.blocked = some true ∧
        computeBlocked db1 "s2" = false ∧
        blockedInvariant db1 = false) := by
  refine ⟨by decide, by decide, by decide, by decide, by decide, by decide⟩

/-! ## Batch mutation coordinator -/

/-- `MAX_BATCH_SIZE`. -/
def MAX_BATCH_SIZE : Nat := 100

structure BatchMoveItem where
  id : String
  status : StoryStatus
deriving DecidableEq, Repr

structure ItemResult where
  id : String
  ok : Bool
  error : Option String := none
deriving DecidableEq, Repr

/-- Response of a batch route: HTTP status, error code of the envelope
(when the status is an error), the echoed `dry_run` flag and the per-item
results (for 409 replies these are the results carried in
`error.details.results`). -/
structure BatchReply where
  status : Nat
  errorCode : Option String := none
  dryRun : Bool := false
  results : List ItemResult := []
deriving DecidableEq, Repr

/-- The `run()` loop of `POST /api/v1/stories/batch/move`.  Returns the
state, the collected results, and whether the loop threw (first failure
with `all_or_nothing`).  State updates apply immediately: the surrounding
`prisma.$transaction(async () => run())` never passes the transaction
client to `run()`, whose queries therefore run on the global client outside
the transaction and are not rolled back when the loop throws. -/
def batchMoveRun (dryRun aon : Bool) :
    Db → List BatchMoveItem → List ItemResult → Db × List ItemResult × Bool
  | db, [], results => (db, results, false)
  | db, item :: rest, results =>
      match findStory db item.id with
      | none =>
          let results := results ++ [⟨item.id, false, some "story not found"⟩]
          if aon then (db, results, true)
          else batchMoveRun dryRun aon db rest results
      | some story =>
          if dryRun then
            batchMoveRun dryRun aon db rest (results ++ [⟨item.id, true, none⟩])
          else
            let db1 := updateStory db item.id (fun s => { s with status := item.status })
            let db2 := refreshBlockedForDependents db1 item.id
            let db3 := logAudit db2 "story.moved" "story" item.id (some story.projectId)
            batchMoveRun dryRun aon db3 rest (results ++ [⟨item.id, true, none⟩])

/-- `POST /api/v1/stories/batch/move`. -/
def batchMove (db : Db) (items : List BatchMoveItem) (dryRun aon : Bool) :
    Db × BatchReply :=
  if items.length = 0 then (db, ⟨400, some "BAD_REQUEST", false, []⟩)
  else if items.length > MAX_BATCH_SIZE then
    (db, ⟨400, some "VALIDATION_ERROR", false, []⟩)
  else
    match batchMoveRun dryRun aon db items [] with
    | (db1, results, true) => (db1, ⟨409, some "CONFLICT", false, results⟩)
    | (db1, results, false) => (db1, ⟨200, none, dryRun, results⟩)

/-- The per-item patch of `POST /api/v1/stories/batch/patch`
(`Pick<StoryBody, 'priority' | 'assignee' | 'blocked' | 'sprintId' | 'dueAt'>`). -/
structure StoryPatchFields where
  priority : Option String := none
  assignee : Option String := none
  blocked : Option Bool := none
  sprintId : Option (Option String) := none
  dueAt : Option (Option String) := none
deriving DecidableEq, Repr

structure BatchPatchItem where
  id : String
  patch : StoryPatchFields
deriving DecidableEq, Repr

/-- The truthiness test `if (item.patch.sprintId)`: validation only runs for
a present, non-null, non-empty sprint id. -/
def sprintIdToValidate (sidOpt : Option (Option String)) : Option String :=
  match sidOpt with
  | some (some sid) => if sid = "" then none else some sid
  | _ => none

/-- The sprint-assignment validation of one batch-patch item: when the
patch carries a truthy `sprintId`, the sprint must exist, belong to the
story's project and not be closed. -/
def sprintOkFor (db : Db) (existing : Story) (p : StoryPatchFields) : Bool :=
  match sprintIdToValidate p.sprintId with
  | none => true
  | some sid =>
      match findSprint db sid with
      | none => false
      | some sprint =>
          sprint.projectId = existing.projectId ∧ sprint.status ≠ "closed"

/-- The `run()` loop of `POST /api/v1/stories/batch/patch` (same
transaction caveat as `batchMoveRun`). -/
def batchPatchRun (dryRun aon : Bool) :
    Db → List BatchPatchItem → List ItemResult → Db × List ItemResult × Bool
  | db, [], results => (db, results, false)
  | db, item :: rest, results =>
      match findStory db item.id with
      | none =>
          let results := results ++ [⟨item.id, false, some "story not found"⟩]
          if aon then (db, results, true)
          else batchPatchRun dryRun aon db rest results
      | some existing =>
          if !(sprintOkFor db existing item.patch) then
            let results := results ++ [⟨item.id, false, some "invalid sprint assignment"⟩]
            if aon then (db, results, true)
            else batchPatchRun dryRun aon db rest results
          else if dryRun then
            batchPatchRun dryRun aon db rest (results ++ [⟨item.id, true, none⟩])
          else
            let db1 := updateStory db item.id (fun s =>
              { s with
                priority := item.patch.priority.getD s.priority
                assignee :=
                  match item.patch.assignee with
                  | none => s.assignee
                  | some v => some v
                blocked := item.patch.blocked.getD s.blocked
                sprintId :=
                  match item.patch.sprintId with
                  | none => s.sprintId
                  | some v => v
                dueAt :=
                  match item.patch.dueAt with
                  | none => s.dueAt
                  | some none => none
                  | some (some d) => if d = "" then s.dueAt else some d })
            let db2 := logAudit db1 "story.updated" "story" item.id
              (some existing.projectId)
            batchPatchRun dryRun aon db2 rest (results ++ [⟨item.id, true, none⟩])

/-- `POST /api/v1/stories/batch/patch`. -/
def batchPatch (db : Db) (items : List BatchPatchItem) (dryRun aon : Bool) :
    Db × BatchReply :=
  if items.length = 0 then (db, ⟨400, some "BAD_REQUEST", false, []⟩)
  else if items.length > MAX_BATCH_SIZE then
    (db, ⟨400, some "VALIDATION_ERROR", false, []⟩)
  else
    match batchPatchRun dryRun aon db items [] with
    | (db1, results, true) => (db1, ⟨409, some "CONFLICT", false, results⟩)
    | (db1, results, false) => (db1, ⟨200, none, dryRun, results⟩)

/-- C1 (code bug): `all_or_nothing=true` batches are not atomic.  The
`run()` loop issues its updates on the global Prisma client, not on the
transaction client of `prisma.$transaction(async () => run())`, so nothing
is rolled back when the loop throws.  Concretely: moving `[s1 → completed,
missing → completed]` with `all_or_nothing=true` replies 409 `CONFLICT`
with the partial results — but `s1`, whose stored status was `waiting`
before the request, remains `completed` afterwards.  The same happens for
`batch/patch` with an invalid second item: `s1`'s priority change is kept. -/
theorem batch_all_or_nothing_not_atomic :
    ((batchMove
        { stories := [{ id := "s1", projectId := "p" }] }
        [⟨"s1", .completed⟩, ⟨"missing", .completed⟩] false true).2.status = 409 ∧
      (batchMove
        { stories := [{ id := "s1", projectId := "p" }] }
        [⟨"s1", .completed⟩, ⟨"missing", .completed⟩] false true).2.errorCode =
          some "CONFLICT" ∧
      (findStory
        { stories := [{ id := "s1", projectId := "p" }] } "s1").map Story.status =
          some .waiting ∧
      (findStory
        (batchMove
          { stories := [{ id := "s1", projectId := "p" }] }
          [⟨"s1", .completed⟩, ⟨"missing", .completed⟩] false true).1
        "s1").map Story.status = some .completed) ∧
    ((batchPatch
        { stories := [{ id := "s1", projectId := "p" }] }
        [⟨"s1", { priority := some "high" }⟩, ⟨"missing", {}⟩] false true).2.status =
          409 ∧
      (findStory
        (batchPatch
          { stories := [{ id := "s1", projectId := "p" }] }
          [⟨"s1", { priority := some "high" }⟩, ⟨"missing", {}⟩] false true).1
        "s1").map Story.priority = some "high") := by
  refine ⟨⟨by decide, by decide, by decide, by decide⟩, by decide, by decide⟩

/-- C9 counterexample: a dry run of an `all_or_nothing` batch with a
failing item does not reply 2xx — the loop's `throw` fires regardless of
`dry_run`, so the response is 409 `CONFLICT` (and validation stops at the
first failure instead of covering every item). -/
theorem batchMove_dry_run_conflict_counterexample :
    (batchMove { } [⟨"missing", .completed⟩] true true).2.status = 409 ∧
      (batchMove { } [⟨"missing", .completed⟩] true true).2.errorCode =
        some "CONFLICT" := by
  refine ⟨by decide, by decide⟩

/-- The validation outcome reported for one item of a dry-run batch move. -/
def moveDryResult (db : Db) (it : BatchMoveItem) : ItemResult :=
  match findStory db it.id with
  | none => ⟨it.id, false, some "story not found"⟩
  | some _ => ⟨it.id, true, none⟩

/-- The validation outcome reported for one item of a dry-run batch patch. -/
def patchDryResult (db : Db) (it : BatchPatchItem) : ItemResult :=
  match findStory db it.id with
  | none => ⟨it.id, false, some "story not found"⟩
  | some existing =>
      if !(sprintOkFor db existing it.patch) then
        ⟨it.id, false, some "invalid sprint assignment"⟩
      else ⟨it.id, true, none⟩

theorem batchMoveRun_dry_state (aon : Bool) (db : Db) :
    ∀ (items : List BatchMoveItem) (acc : List ItemResult),
      (batchMoveRun true aon db items acc).1 = db := by
  intro items
  induction items with
  | nil => intro acc; rfl
  | cons it rest ih =>
      intro acc
      cases hfind : findStory db it.id with
      | none =>
          cases aon <;> simp [batchMoveRun, hfind, ih]
      | some story =>
          simp [batchMoveRun, hfind, ih]

theorem batchMoveRun_dry_flag (aon : Bool) (db : Db) :
    ∀ (items : List BatchMoveItem) (acc : List ItemResult),
      (batchMoveRun true aon db items acc).2.2 =
        (aon && items.any (fun it => (findStory db it.id).isNone)) := by
  intro items
  induction items with
  | nil => intro acc; simp [batchMoveRun]
  | cons it rest ih =>
      intro acc
      cases hfind : findStory db it.id with
      | none =>
          cases aon <;> simp [batchMoveRun, hfind, ih]
      | some story =>
          simp [batchMoveRun, hfind, ih]

theorem batchMoveRun_dry_results (aon : Bool) (db : Db) :
    ∀ (items : List BatchMoveItem) (acc : List ItemResult),
      (batchMoveRun true aon db items acc).2.2 = false →
        (batchMoveRun true aon db items acc).2.1 =
          acc ++ items.map (moveDryResult db) := by
  intro items
  induction items with
  | nil => intro acc _; simp [batchMoveRun]
  | cons it rest ih =>
      intro acc hflag
      cases hfind : findStory db it.id with
      | none =>
          cases haon : aon with
          | true =>
              subst haon
              simp [batchMoveRun, hfind] at hflag
          | false =>
              subst haon
              simp only [batchMoveRun, hfind] at hflag ⊢
              simp only [if_neg (by simp : ¬ (false : Bool) = true)] at hflag ⊢
              rw [ih _ hflag]
              simp [moveDryResult, hfind]
      | some story =>
          simp only [batchMoveRun, hfind, if_true] at hflag ⊢
          rw [ih _ hflag]
          simp [moveDryResult, hfind]

theorem batchPatchRun_dry_state (aon : Bool) (db : Db) :
    ∀ (items : List BatchPatchItem) (acc : List ItemResult),
      (batchPatchRun true aon db items acc).1 = db := by
  intro items
  induction items with
  | nil => intro acc; rfl
  | cons it rest ih =>
      intro acc
      cases hfind : findStory db it.id with
      | none =>
          cases aon <;> simp [batchPatchRun, hfind, ih]
      | some story =>
          cases hok : sprintOkFor db story it.patch with
          | true => cases aon <;> simp [batchPatchRun, hfind, hok, ih]
          | false => cases aon <;> simp [batchPatchRun, hfind, hok, ih]

theorem batchPatchRun_dry_flag (aon : Bool) (db : Db) :
    ∀ (items : List BatchPatchItem) (acc : List ItemResult),
      (batchPatchRun true aon db items acc).2.2 =
        (aon && items.any (fun it => !(patchDryResult db it).ok)) := by
  intro items
  induction items with
  | nil => intro acc; simp [batchPatchRun]
  | cons it rest ih =>
      intro acc
      cases hfind : findStory db it.id with
      | none =>
          cases aon <;> simp [batchPatchRun, patchDryResult, hfind, ih]
      | some story =>
          cases hok : sprintOkFor db story it.patch with
          | true =>
              simp [batchPatchRun, patchDryResult, hfind, hok, ih]
          | false =>
              cases aon <;> simp [batchPatchRun, patchDryResult, hfind, hok, ih]

theorem batchPatchRun_dry_results (aon : Bool) (db : Db) :
    ∀ (items : List BatchPatchItem) (acc : List ItemResult),
      (batchPatchRun true aon db items acc).2.2 = false →
        (batchPatchRun true aon db items acc).2.1 =
          acc ++ items.map (patchDryResult db) := by
  intro items
  induction items with
  | nil => intro acc _; simp [batchPatchRun]
  | cons it rest ih =>
      intro acc hflag
      cases hfind : findStory db it.id with
      | none =>
          cases haon : aon with
          | true =>
              subst haon
              simp [batchPatchRun, hfind] at hflag
          | false =>
              subst haon
              simp only [batchPatchRun, hfind] at hflag ⊢
              simp only [if_neg (by simp : ¬ (false : Bool) = true)] at hflag ⊢
              rw [ih _ hflag]
              simp [patchDryResult, hfind]
      | some story =>
          cases hok : sprintOkFor db story it.patch with
          | true =>
              simp only [batchPatchRun, hfind, hok, Bool.not_true, if_true,
                if_neg (by simp : ¬ (false : Bool) = true)] at hflag ⊢
              rw [ih _ hflag]
              simp [patchDryResult, hfind, hok]
          | false =>
              cases haon : aon with
              | true =>
                  subst haon
                  simp [batchPatchRun, hfind, hok] at hflag
              | false =>
                  subst haon
                  simp only [batchPatchRun, hfind, hok, Bool.not_false, if_true,
                    if_neg (by simp : ¬ (false : Bool) = true)] at hflag ⊢
                  rw [ih _ hflag]
                  simp [patchDryResult, hfind, hok]

/-- When an `all_or_nothing` dry run of `batch/move` aborts, the collected
results are exactly the validation results of the items before the first
failing one, followed by that failing item's result — nothing after the
failure is reported. -/
theorem batchMoveRun_dry_abort_results (db : Db) :
    ∀ (items : List BatchMoveItem) (acc : List ItemResult),
      (batchMoveRun true true db items acc).2.2 = true →
      (batchMoveRun true true db items acc).2.1 =
        acc ++ (items.takeWhile (fun it => (moveDryResult db it).ok)).map
            (moveDryResult db) ++
          (match (items.dropWhile (fun it => (moveDryResult db it).ok)).head? with
           | some it => [moveDryResult db it]
           | none => []) := by
  intro items
  induction items with
  | nil =>
      intro acc hflag
      simp [batchMoveRun] at hflag
  | cons it rest ih =>
      intro acc hflag
      cases hfind : findStory db it.id with
      | none =>
          have hok : (moveDryResult db it).ok = false := by
            simp [moveDryResult, hfind]
          simp only [batchMoveRun, hfind]
          simp [List.takeWhile_cons, List.dropWhile_cons, hok, moveDryResult, hfind]
      | some story =>
          have hok : (moveDryResult db it).ok = true := by
            simp [moveDryResult, hfind]
          have hflag2 : (batchMoveRun true true db rest
              (acc ++ [⟨it.id, true, none⟩])).2.2 = true := by
            simpa [batchMoveRun, hfind] using hflag
          have hres := ih (acc ++ [⟨it.id, true, none⟩]) hflag2
          simp only [batchMoveRun, hfind, if_true]
          rw [hres]
          have hdry : moveDryResult db it = ⟨it.id, true, none⟩ := by
            simp [moveDryResult, hfind]
          simp [List.takeWhile_cons, List.dropWhile_cons, hok, hdry, List.append_assoc]

/-- Abort-results characterization for `batch/patch` dry runs, mirroring
`batchMoveRun_dry_abort_results`. -/
theorem batchPatchRun_dry_abort_results (db : Db) :
    ∀ (items : List BatchPatchItem) (acc : List ItemResult),
      (batchPatchRun true true db items acc).2.2 = true →
      (batchPatchRun true true db items acc).2.1 =
        acc ++ (items.takeWhile (fun it => (patchDryResult db it).ok)).map
            (patchDryResult db) ++
          (match (items.dropWhile (fun it => (patchDryResult db it).ok)).head? with
           | some it => [patchDryResult db it]
           | none => []) := by
  intro items
  induction items with
  | nil =>
      intro acc hflag
      simp [batchPatchRun] at hflag
  | cons it rest ih =>
      intro acc hflag
      cases hfind : findStory db it.id with
      | none =>
          have hok : (patchDryResult db it).ok = false := by
            simp [patchDryResult, hfind]
          simp only [batchPatchRun, hfind]
          simp [List.takeWhile_cons, List.dropWhile_cons, hok, patchDryResult, hfind]
      | some story =>
          cases hsp : sprintOkFor db story it.patch with
          | false =>
              have hok : (patchDryResult db it).ok = false := by
                simp [patchDryResult, hfind, hsp]
              have hdry : patchDryResult db it =
                  ⟨it.id, false, some "invalid sprint assignment"⟩ := by
                simp [patchDryResult, hfind, hsp]
              simp only [batchPatchRun, hfind, hsp]
              simp [List.takeWhile_cons, List.dropWhile_cons, hok, hdry]
          | true =>
              have hok : (patchDryResult db it).ok = true := by
                simp [patchDryResult, hfind, hsp]
              have hdry : patchDryResult db it = ⟨it.id, true, none⟩ := by
                simp [patchDryResult, hfind, hsp]
              have hflag2 : (batchPatchRun true true db rest
                  (acc ++ [⟨it.id, true, none⟩])).2.2 = true := by
                simpa [batchPatchRun, hfind, hsp] using hflag
              have hres := ih (acc ++ [⟨it.id, true, none⟩]) hflag2
              simp only [batchPatchRun, hfind, hsp, Bool.not_true, if_true,
                if_neg (by simp : ¬ (false : Bool) = true)]
              rw [hres]
              simp [List.takeWhile_cons, List.dropWhile_cons, hok, hdry,
                List.append_assoc]

/-- C9 (amended): a dry-run batch (move or patch) never mutates any story.
When `all_or_nothing` is false — or every item validates — the response is
200 with one validation result per item, in order.  But when
`all_or_nothing=true` and some item fails validation, the loop's `throw`
fires even on a dry run: the response is 409 `CONFLICT`, and its result
list is exactly the validation results collected up to and including the
first failing item — every item after the failure is missing, instead of
the claimed 2xx reply covering every item. -/
theorem batch_dry_run_validates_without_writing (db : Db)
    (mItems : List BatchMoveItem) (pItems : List BatchPatchItem) (aon : Bool)
    (hm1 : mItems ≠ []) (hm2 : mItems.length ≤ MAX_BATCH_SIZE)
    (hp1 : pItems ≠ []) (hp2 : pItems.length ≤ MAX_BATCH_SIZE) :
    ((batchMove db mItems true aon).1 = db ∧
      ((aon = false ∨ ∀ it ∈ mItems, (findStory db it.id).isSome) →
        (batchMove db mItems true aon).2 =
          ⟨200, none, true, mItems.map (moveDryResult db)⟩) ∧
      ((aon = true ∧ ∃ it ∈ mItems, findStory db it.id = none) →
        (batchMove db mItems true aon).2.status = 409 ∧
        (batchMove db mItems true aon).2.errorCode = some "CONFLICT" ∧
        (batchMove db mItems true aon).2.results =
          (mItems.takeWhile (fun it => (moveDryResult db it).ok)).map
              (moveDryResult db) ++
            (match (mItems.dropWhile (fun it => (moveDryResult db it).ok)).head? with
             | some it => [moveDryResult db it]
             | none => []))) ∧
    ((batchPatch db pItems true aon).1 = db ∧
      ((aon = false ∨ ∀ it ∈ pItems, (patchDryResult db it).ok = true) →
        (batchPatch db pItems true aon).2 =
          ⟨200, none, true, pItems.map (patchDryResult db)⟩) ∧
      ((aon = true ∧ ∃ it ∈ pItems, (patchDryResult db it).ok = false) →
        (batchPatch db pItems true aon).2.status = 409 ∧
        (batchPatch db pItems true aon).2.errorCode = some "CONFLICT" ∧
        (batchPatch db pItems true aon).2.results =
          (pItems.takeWhile (fun it => (patchDryResult db it).ok)).map
              (patchDryResult db) ++
            (match (pItems.dropWhile (fun it => (patchDryResult db it).ok)).head? with
             | some it => [patchDryResult db it]
             | none => []))) := by
  constructor
  · have hlen0 : ¬ mItems.length = 0 := fun h => hm1 (List.length_eq_zero.mp h)
    have hlenM : ¬ mItems.length > MAX_BATCH_SIZE := by omega
    rcases hrun : batchMoveRun true aon db mItems [] with ⟨db1, results, flag⟩
    have hstate' : db1 = db := by
      have h := batchMoveRun_dry_state aon db mItems []
      rw [hrun] at h
      exact h
    have hflag' : flag = (aon && mItems.any fun it => (findStory db it.id).isNone) := by
      have h := batchMoveRun_dry_flag aon db mItems []
      rw [hrun] at h
      exact h
    have hres' : flag = false → results = mItems.map (moveDryResult db) := by
      intro hf
      have h := batchMoveRun_dry_results aon db mItems []
      rw [hrun] at h
      simpa using h hf
    cases flag with
    | false =>
        refine ⟨?_, ?_, ?_⟩
        · simp [batchMove, hm1, if_neg hlen0, if_neg hlenM, hrun, hstate']
        · intro _
          simp [batchMove, hm1, if_neg hlen0, if_neg hlenM, hrun, hres' rfl]
        · rintro ⟨haon, it, hit, hnone⟩
          exfalso
          subst haon
          have hany : mItems.any (fun it => (findStory db it.id).isNone) = true :=
            List.any_eq_true.mpr ⟨it, hit, by simp [hnone]⟩
          rw [hany] at hflag'
          simp at hflag'
    | true =>
        refine ⟨?_, ?_, ?_⟩
        · simp [batchMove, hm1, if_neg hlen0, if_neg hlenM, hrun, hstate']
        · intro hcond
          exfalso
          rcases hcond with haon | hall
          · subst haon
            simp at hflag'
          · have hany : mItems.any (fun it => (findStory db it.id).isNone) = false := by
              rw [List.any_eq_false]
              intro it hit
              obtain ⟨t, ht⟩ := Option.isSome_iff_exists.mp (hall it hit)
              simp [ht]
            rw [hany] at hflag'
            simp at hflag'
        · rintro ⟨haon, _⟩
          subst haon
          have habort2 : results =
              (mItems.takeWhile (fun it => (moveDryResult db it).ok)).map
                  (moveDryResult db) ++
                (match (mItems.dropWhile
                    (fun it => (moveDryResult db it).ok)).head? with
                 | some it => [moveDryResult db it]
                 | none => []) := by
            have h := batchMoveRun_dry_abort_results db mItems [] (by rw [hrun])
            rw [hrun] at h
            simpa using h
          refine ⟨?_, ?_, ?_⟩
          · simp [batchMove, hm1, if_neg hlen0, if_neg hlenM, hrun]
          · simp [batchMove, hm1, if_neg hlen0, if_neg hlenM, hrun]
          · simp [batchMove, hm1, if_neg hlen0, if_neg hlenM, hrun, habort2]
  · have hlen0 : ¬ pItems.length = 0 := fun h => hp1 (List.length_eq_zero.mp h)
    have hlenM : ¬ pItems.length > MAX_BATCH_SIZE := by omega
    rcases hrun : batchPatchRun true aon db pItems [] with ⟨db1, results, flag⟩
    have hstate' : db1 = db := by
      have h := batchPatchRun_dry_state aon db pItems []
      rw [hrun] at h
      exact h
    have hflag' : flag = (aon && pItems.any fun it => !(patchDryResult db it).ok) := by
      have h := batchPatchRun_dry_flag aon db pItems []
      rw [hrun] at h
      exact h
    have hres' : flag = false → results = pItems.map (patchDryResult db) := by
      intro hf
      have h := batchPatchRun_dry_results aon db pItems []
      rw [hrun] at h
      simpa using h hf
    cases flag with
    | false =>
        refine ⟨?_, ?_, ?_⟩
        · simp [batchPatch, hp1, if_neg hlen0, if_neg hlenM, hrun, hstate']
        · intro _
          simp [batchPatch, hp1, if_neg hlen0, if_neg hlenM, hrun, hres' rfl]
        · rintro ⟨haon, it, hit, hnotok⟩
          exfalso
          subst haon
          have hany : pItems.any (fun it => !(patchDryResult db it).ok) = true :=
            List.any_eq_true.mpr ⟨it, hit, by simp [hnotok]⟩
          rw [hany] at hflag'
          simp at hflag'
    | true =>
        refine ⟨?_, ?_, ?_⟩
        · simp [batchPatch, hp1, if_neg hlen0, if_neg hlenM, hrun, hstate']
        · intro hcond
          exfalso
          rcases hcond with haon | hall
          · subst haon
            simp at hflag'
          · have hany : pItems.any (fun it => !(patchDryResult db it).ok) = false := by
              rw [List.any_eq_false]
              intro it hit
              simp [hall it hit]
            rw [hany] at hflag'
            simp at hflag'
        · rintro ⟨haon, _⟩
          subst haon
          have habort2 : results =
              (pItems.takeWhile (fun it => (patchDryResult db it).ok)).map
                  (patchDryResult db) ++
                (match (pItems.dropWhile
                    (fun it => (patchDryResult db it).ok)).head? with
                 | some it => [patchDryResult db it]
                 | none => []) := by
            have h := batchPatchRun_dry_abort_results db pItems [] (by rw [hrun])
            rw [hrun] at h
            simpa using h
          refine ⟨?_, ?_, ?_⟩
          · simp [batchPatch, hp1, if_neg hlen0, if_neg hlenM, hrun]
          · simp [batchPatch, hp1, if_neg hlen0, if_neg hlenM, hrun]
          · simp [batchPatch, hp1, if_neg hlen0, if_neg hlenM, hrun, habort2]

theorem batch_dry_run_validates_without_writing_witness :
    (batchMove { stories := [{ id := "s1", projectId := "p" }] }
        [⟨"s1", .completed⟩] true false).2 =
      ⟨200, none, true, [⟨"s1", true, none⟩]⟩ ∧
    (batchPatch { stories := [{ id := "s1", projectId := "p" }] }
        [⟨"s1", {}⟩] true false).1 =
      { stories := [{ id := "s1", projectId := "p" }] } := by
  have h := batch_dry_run_validates_without_writing
    { stories := [{ id := "s1", projectId := "p" }] }
    [⟨"s1", .completed⟩] [⟨"s1", {}⟩] false
    (by simp) (by decide) (by simp) (by decide)
  refine ⟨?_, h.2.1⟩
  have h2 := h.1.2.1 (Or.inl rfl)
  rw [h2]
  decide

/-! ## Cursor paginator -/

/-- A row of a paginated table, reduced to its sort key: the sort timestamp
(`updatedAt` for stories, `createdAt` for files/events/audit; modelled as
epoch milliseconds) and the row id.  The remaining columns only matter
through the `where` predicate, which is kept abstract. -/
structure PageRow where
  ts : Int
  id : String
deriving DecidableEq, Repr

/-- `cursorWhere`'s condition: the row is strictly below the decoded cursor
`(updatedAt, id)` — `updatedAt < c.updatedAt OR (updatedAt = c.updatedAt AND
id < c.id)`. -/
def rowKeyLt (r : PageRow) (k : Int × String) : Bool :=
  r.ts < k.1 ∨ (r.ts = k.1 ∧ r.id < k.2)

/-- The pagination clause: absent cursor matches everything, a (decoded)
cursor restricts to rows strictly below it. -/
def cursorMatches (cursor : Option (Int × String)) (r : PageRow) : Bool :=
  match cursor with
  | none => true
  | some k => rowKeyLt r k

/-- Strict descending `(ts desc, id desc)` order between rows — the
`orderBy` of every list query.  A snapshot handed to `fetchRows` is assumed
sorted this way, which is what the database's `ORDER BY` guarantees. -/
def rowGt (a b : PageRow) : Prop :=
  b.ts < a.ts ∨ (b.ts = a.ts ∧ b.id < a.id)

instance : DecidableRel rowGt := fun a b =>
  inferInstanceAs (Decidable (b.ts < a.ts ∨ (b.ts = a.ts ∧ b.id < a.id)))

/-- The `findMany(\x7bwhere, orderBy, take: limit + 1\x7d)` call: from the
(desc-sorted) snapshot, the rows matching the filter and strictly below the
cursor, truncated to `limit + 1`. -/
def fetchRows (rows : List PageRow) (pred : PageRow → Bool)
    (cursor : Option (Int × String)) (limit : Nat) : List PageRow :=
  (rows.filter (fun r => pred r && cursorMatches cursor r)).take (limit + 1)

structure Page where
  items : List PageRow
  hasMore : Bool
  nextCursor : Option (Int × String)
deriving DecidableEq, Repr

/-- One page of a list endpoint: `hasMore = fetched.length > limit`, the
surplus row is discarded, and `nextCursor` encodes the last returned row. -/
def listPage (rows : List PageRow) (pred : PageRow → Bool)
    (cursor : Option (Int × String)) (limit : Nat) : Page :=
  let fetched := fetchRows rows pred cursor limit
  let pageItems := if fetched.length > limit then fetched.take limit else fetched
  let nextCursor :=
    if fetched.length > limit then
      match pageItems.getLast? with
      | some r => some (r.ts, r.id)
      | none => none
    else none
  ⟨pageItems, fetched.length > limit, nextCursor⟩

/-- Client-side traversal: follow `nextCursor` until `hasMore = false`,
concatenating the pages; `none` if the step budget runs out first. -/
def paginateAll (rows : List PageRow) (pred : PageRow → Bool) (limit : Nat) :
    Nat → Option (Int × String) → Option (List PageRow)
  | 0, _ => none
  | fuel + 1, cursor =>
      let page := listPage rows pred cursor limit
      if page.hasMore then
        match paginateAll rows pred limit fuel page.nextCursor with
        | none => none
        | some restRows => some (page.items ++ restRows)
      else some page.items

theorem rowKeyLt_self (a : PageRow) : rowKeyLt a (a.ts, a.id) = false := by
  simp [rowKeyLt]

theorem rowKeyLt_of_rowGt {a b : PageRow} (h : rowGt a b) :
    rowKeyLt b (a.ts, a.id) = true := by
  simp only [rowKeyLt, decide_eq_true_eq]
  exact h

theorem not_rowKeyLt_of_rowGt {a b : PageRow} (h : rowGt a b) :
    rowKeyLt a (b.ts, b.id) = false := by
  simp only [rowKeyLt, decide_eq_false_iff_not]
  rcases h with h | ⟨h1, h2⟩
  · rintro (h' | ⟨h1', h2'⟩)
    · exact absurd (lt_trans h h') (lt_irrefl _)
    · rw [h1'] at h
      exact absurd h (lt_irrefl _)
  · rintro (h' | ⟨h1', h2'⟩)
    · rw [h1] at h'
      exact absurd h' (lt_irrefl _)
    · exact absurd (lt_trans h2 h2') (lt_irrefl _)

theorem cursorMatches_of_rowKeyLt {cursor : Option (Int × String)}
    {b r : PageRow} (hb : cursorMatches cursor b = true)
    (hr : rowKeyLt r (b.ts, b.id) = true) : cursorMatches cursor r = true := by
  cases cursor with
  | none => rfl
  | some k =>
      simp only [cursorMatches, rowKeyLt, decide_eq_true_eq] at hb hr ⊢
      rcases hb with hb | ⟨hb1, hb2⟩
      · rcases hr with hr | ⟨hr1, hr2⟩
        · exact Or.inl (lt_trans hr hb)
        · exact Or.inl (hr1 ▸ hb)
      · rcases hr with hr | ⟨hr1, hr2⟩
        · exact Or.inl (hb1 ▸ hr)
        · exact Or.inr ⟨hr1.trans hb1, lt_trans hr2 hb2⟩

theorem filter_lt_get_drop :
    ∀ (m : List PageRow), m.Pairwise rowGt → ∀ (j : Nat) (mj : PageRow),
      m.get? j = some mj →
      m.filter (fun r => rowKeyLt r (mj.ts, mj.id)) = m.drop (j + 1) := by
  intro m
  induction m with
  | nil =>
      intro _ j mj hj
      simp at hj
  | cons a t ih =>
      intro hp j mj hj
      rcases List.pairwise_cons.mp hp with ⟨hhead, htail⟩
      cases j with
      | zero =>
          rw [List.get?_cons_zero] at hj
          injection hj with hj
          subst hj
          rw [List.drop_one]
          simp only [List.filter_cons, rowKeyLt_self]
          rw [if_neg (by simp), List.tail_cons]
          apply List.filter_eq_self.mpr
          intro r hr
          exact rowKeyLt_of_rowGt (hhead r hr)
      | succ j =>
          rw [List.get?_cons_succ] at hj
          have hmem : mj ∈ t := List.get?_mem hj
          simp only [List.filter_cons, not_rowKeyLt_of_rowGt (hhead mj hmem)]
          rw [if_neg (by simp), List.drop_succ_cons]
          exact ih htail j mj hj

theorem filter_cursor_step (rows : List PageRow) (pred : PageRow → Bool)
    (cursor : Option (Int × String)) (kt : Int) (ki : String)
    (hk : ∀ r : PageRow, rowKeyLt r (kt, ki) = true → cursorMatches cursor r = true) :
    rows.filter (fun r => pred r && rowKeyLt r (kt, ki)) =
      (rows.filter (fun r => pred r && cursorMatches cursor r)).filter
        (fun r => rowKeyLt r (kt, ki)) := by
  rw [List.filter_filter]
  apply List.filter_congr
  intro r _
  cases hlt : rowKeyLt r (kt, ki) with
  | false => simp [hlt]
  | true => simp [hlt, hk r hlt]

theorem listPage_hasMore (rows : List PageRow) (pred : PageRow → Bool)
    (cursor : Option (Int × String)) (limit : Nat) :
    (listPage rows pred cursor limit).hasMore =
      decide ((fetchRows rows pred cursor limit).length > limit) := rfl

theorem listPage_items (rows : List PageRow) (pred : PageRow → Bool)
    (cursor : Option (Int × String)) (limit : Nat) :
    (listPage rows pred cursor limit).items =
      if (fetchRows rows pred cursor limit).length > limit then
        (fetchRows rows pred cursor limit).take limit
      else fetchRows rows pred cursor limit := rfl


theorem listPage_nextCursor (rows : List PageRow) (pred : PageRow → Bool)
    (cursor : Option (Int × String)) (limit : Nat) :
    (listPage rows pred cursor limit).nextCursor =
      if (fetchRows rows pred cursor limit).length > limit then
        match (listPage rows pred cursor limit).items.getLast? with
        | some r => some (r.ts, r.id)
        | none => none
      else none := rfl

theorem paginateAll_complete_aux (rows : List PageRow) (pred : PageRow → Bool)
    (limit : Nat) (hsorted : rows.Pairwise rowGt) (hlim : 1 ≤ limit) :
    ∀ (fuel : Nat) (cursor : Option (Int × String)),
      (rows.filter (fun r => pred r && cursorMatches cursor r)).length < fuel →
      paginateAll rows pred limit fuel cursor =
        some (rows.filter (fun r => pred r && cursorMatches cursor r)) := by
  intro fuel
  induction fuel with
  | zero =>
      intro cursor h
      exact absurd h (Nat.not_lt_zero _)
  | succ fuel ih =>
      intro cursor h
      have hm : (rows.filter (fun r => pred r && cursorMatches cursor r)).Pairwise rowGt :=
        hsorted.filter _
      by_cases hlen :
          (rows.filter (fun r => pred r && cursorMatches cursor r)).length ≤ limit
      · have hfetch : fetchRows rows pred cursor limit =
            rows.filter (fun r => pred r && cursorMatches cursor r) := by
          rw [fetchRows]
          exact List.take_of_length_le (by omega)
        have hHMf : (listPage rows pred cursor limit).hasMore = false := by
          rw [listPage_hasMore, hfetch]
          simp
          omega
        rw [paginateAll]
        simp only [hHMf]
        rw [if_neg (by simp)]
        rw [listPage_items, hfetch]
        rw [if_neg (by omega)]
      · have hlen' :
            limit + 1 ≤ (rows.filter (fun r => pred r && cursorMatches cursor r)).length := by
          omega
        have hfetchlen : (fetchRows rows pred cursor limit).length = limit + 1 := by
          rw [fetchRows, List.length_take]
          omega
        have hHMt : (listPage rows pred cursor limit).hasMore = true := by
          rw [listPage_hasMore, hfetchlen]
          simp
        have hitems : (listPage rows pred cursor limit).items =
            (rows.filter (fun r => pred r && cursorMatches cursor r)).take limit := by
          rw [listPage_items, if_pos (by omega), fetchRows, List.take_take]
          congr 1
          omega
        -- the last returned row is the row at index limit - 1 of the match list
        have hidx : limit - 1 <
            (rows.filter (fun r => pred r && cursorMatches cursor r)).length := by
          omega
        have hmj : (rows.filter (fun r => pred r && cursorMatches cursor r)).get?
            (limit - 1) = some ((rows.filter
              (fun r => pred r && cursorMatches cursor r)).get ⟨limit - 1, hidx⟩) :=
          List.get?_eq_get hidx
        set mj := (rows.filter (fun r => pred r && cursorMatches cursor r)).get
          ⟨limit - 1, hidx⟩ with hmjdef
        have hlast : ((listPage rows pred cursor limit).items).getLast? = some mj := by
          rw [hitems, List.getLast?_eq_get?]
          have hlen_take :
              ((rows.filter (fun r => pred r && cursorMatches cursor r)).take
                limit).length = limit := by
            rw [List.length_take]
            omega
          rw [hlen_take, List.get?_take (by omega : limit - 1 < limit)]
          exact hmj
        have hnext : (listPage rows pred cursor limit).nextCursor =
            some (mj.ts, mj.id) := by
          rw [listPage_nextCursor, if_pos (by omega), hlast]
        have hmjmem : mj ∈ rows.filter (fun r => pred r && cursorMatches cursor r) :=
          List.get_mem _ _ _
        have hmjmatch : cursorMatches cursor mj = true := by
          have h2 := List.of_mem_filter hmjmem
          simp only [Bool.and_eq_true] at h2
          exact h2.2
        have hk : ∀ r : PageRow, rowKeyLt r (mj.ts, mj.id) = true →
            cursorMatches cursor r = true :=
          fun r hr => cursorMatches_of_rowKeyLt hmjmatch hr
        have hmnext : rows.filter (fun r => pred r &&
              cursorMatches (some (mj.ts, mj.id)) r) =
            (rows.filter (fun r => pred r && cursorMatches cursor r)).drop limit := by
          have h1 : rows.filter (fun r => pred r && cursorMatches (some (mj.ts, mj.id)) r) =
              rows.filter (fun r => pred r && rowKeyLt r (mj.ts, mj.id)) := by
            simp only [cursorMatches]
          rw [h1, filter_cursor_step rows pred cursor mj.ts mj.id hk,
            filter_lt_get_drop _ hm (limit - 1) mj hmj]
          congr 1
          omega
        have hrec := ih (some (mj.ts, mj.id)) (by
          rw [hmnext, List.length_drop]
          omega)
        rw [paginateAll]
        simp only [hHMt, hnext, hrec, hmnext, hitems]
        simp [List.take_append_drop]

/-- C7: on a fixed desc-sorted snapshot, every list query fetches at most
`limit + 1` rows below the cursor; `hasMore` holds exactly when `limit + 1`
rows came back, in which case the surplus row is discarded and `nextCursor`
encodes the last returned row (the `limit`-th); and concatenating all pages
from `cursor = null` until `hasMore = false` yields exactly the rows
matching the filter — no duplicates, no omissions. -/
theorem cursor_pagination_correct (rows : List PageRow) (pred : PageRow → Bool)
    (limit : Nat) (hsorted : rows.Pairwise rowGt) (hlim : 1 ≤ limit) :
    (∀ cursor : Option (Int × String),
      (fetchRows rows pred cursor limit).length ≤ limit + 1 ∧
      ((listPage rows pred cursor limit).hasMore = true ↔
        (fetchRows rows pred cursor limit).length = limit + 1) ∧
      ((listPage rows pred cursor limit).hasMore = true →
        (listPage rows pred cursor limit).items =
          (fetchRows rows pred cursor limit).take limit ∧
        ∃ last, (listPage rows pred cursor limit).items.getLast? = some last ∧
          (listPage rows pred cursor limit).nextCursor = some (last.ts, last.id)) ∧
      ((listPage rows pred cursor limit).hasMore = false →
        (listPage rows pred cursor limit).items = fetchRows rows pred cursor limit ∧
        (listPage rows pred cursor limit).nextCursor = none)) ∧
    paginateAll rows pred limit (rows.length + 1) none = some (rows.filter pred) := by
  constructor
  · intro cursor
    have hbound : (fetchRows rows pred cursor limit).length ≤ limit + 1 := by
      rw [fetchRows, List.length_take]
      omega
    refine ⟨hbound, ?_, ?_, ?_⟩
    · have hiff : (listPage rows pred cursor limit).hasMore = true ↔
          (fetchRows rows pred cursor limit).length > limit := by
        rw [listPage_hasMore]
        exact decide_eq_true_iff
      rw [hiff]
      omega
    · intro hHM
      rw [listPage_hasMore] at hHM
      simp only [decide_eq_true_eq] at hHM
      have hitems : (listPage rows pred cursor limit).items =
          (fetchRows rows pred cursor limit).take limit := by
        rw [listPage_items, if_pos hHM]
      refine ⟨hitems, ?_⟩
      have hne : (listPage rows pred cursor limit).items ≠ [] := by
        rw [hitems]
        intro hcontra
        have hlen0 := congrArg List.length hcontra
        simp only [List.length_take, List.length_nil] at hlen0
        rcases Nat.min_eq_zero_iff.mp hlen0 with h0 | h0
        · omega
        · omega
      obtain ⟨last, hlast⟩ :=
        Option.isSome_iff_exists.mp (List.getLast?_isSome.mpr hne)
      refine ⟨last, hlast, ?_⟩
      rw [listPage_nextCursor, if_pos hHM, hlast]
    · intro hHM
      rw [listPage_hasMore] at hHM
      simp only [decide_eq_false_iff_not] at hHM
      constructor
      · rw [listPage_items, if_neg hHM]
      · rw [listPage_nextCursor, if_neg hHM]
  · have h := paginateAll_complete_aux rows pred limit hsorted hlim
      (rows.length + 1) none (by
        have : (rows.filter (fun r => pred r && cursorMatches none r)).length ≤
            rows.length := List.length_filter_le _ _
        omega)
    rw [h]
    congr 1
    apply List.filter_congr
    intro r _
    simp [cursorMatches]

theorem cursor_pagination_correct_witness :
    paginateAll [⟨2, "b"⟩, ⟨1, "a"⟩] (fun _ => true) 1 3 none =
      some [⟨2, "b"⟩, ⟨1, "a"⟩] := by
  have h := (cursor_pagination_correct [⟨2, "b"⟩, ⟨1, "a"⟩] (fun _ => true) 1
    (by decide) (by omega)).2
  exact h.trans (by decide)

/-! ## Idempotency guard -/

/-- An `idempotency_record` row (the TTL `expiresAt` column never
influences a decision in the source and is omitted). -/
structure IdempotencyRecord where
  key : String
  method : String
  route : String
  fingerprint : String
  statusCode : Nat
  responseBody : String
deriving DecidableEq, Repr

/-- Domain store plus the idempotency-record table. -/
structure ServerState where
  db : Db := {}
  records : List IdempotencyRecord := []
deriving DecidableEq, Repr

/-- `findUnique` on the composite unique key `(key, method, route)`. -/
def findRecord (records : List IdempotencyRecord) (key method route : String) :
    Option IdempotencyRecord :=
  records.find? (fun r => r.key = key ∧ r.method = method ∧ r.route = route)

/-- `codeFromStatus`. -/
def codeFromStatus (statusCode : Nat) : String :=
  if statusCode = 400 then "BAD_REQUEST"
  else if statusCode = 401 then "UNAUTHORIZED"
  else if statusCode = 404 then "NOT_FOUND"
  else if statusCode = 409 then "CONFLICT"
  else if statusCode = 413 then "PAYLOAD_TOO_LARGE"
  else if statusCode = 415 then "UNSUPPORTED_MEDIA_TYPE"
  else if statusCode = 429 then "RATE_LIMITED"
  else if statusCode = 503 then "SERVICE_UNAVAILABLE"
  else if statusCode ≥ 500 then "INTERNAL_ERROR"
  else "BAD_REQUEST"

/-- `errorPayload` (the optional `details` record is omitted: no idempotency
reply carries one). -/
def errorPayloadJson (statusCode : Nat) (message : String)
    (code : Option String) : Json :=
  .obj [("error", .obj [("code", .str (code.getD (codeFromStatus statusCode))),
    ("message", .str (message))])]

/-- JavaScript truthiness of a JSON value. -/
def jsTruthy : Json → Bool
  | .null => false
  | .bool b => b
  | .num n => n ≠ 0
  | .str s => s ≠ ""
  | .arr _ => true
  | .obj _ => true

def getField (entries : List (String × Json)) (k : String) : Option Json :=
  (entries.find? (fun e => e.1 = k)).map (fun e => e.2)

/-- Property access `v.k` (`undefined`, i.e. `none`, on non-objects). -/
def fieldOf (v : Json) (k : String) : Option Json :=
  match v with
  | .obj es => getField es k
  | _ => none

def isStringField (v : Option Json) : Bool :=
  match v with
  | some (.str _) => true
  | _ => false

/-- The error-shape normalization of the `onSend` hook (source lines
wrapping error replies into the `\x7berror: \x7bcode, message\x7d\x7d` envelope for
status ≥ 400). -/
def normalizeErrorBody (statusCode : Nat) (outgoing : Json) : Json :=
  if statusCode < 400 then outgoing
  else
    match outgoing with
    | .obj entries =>
        let errVal := (getField entries "error").getD .null
        match errVal with
        | .str s => errorPayloadJson statusCode s none
        | _ =>
            if jsTruthy errVal &&
                !(isStringField (fieldOf errVal "code") &&
                  isStringField (fieldOf errVal "message")) then
              let message :=
                match fieldOf errVal "message" with
                | some (.str m) => m
                | _ =>
                    match getField entries "message" with
                    | some (.str m) => m
                    | _ => "request failed"
              errorPayloadJson statusCode message none
            else if !(jsTruthy errVal) then
              match getField entries "message" with
              | some (.str m) => errorPayloadJson statusCode m none
              | _ => outgoing
            else outgoing
    | _ => outgoing

def isAsciiWhitespace (c : Char) : Bool :=
  c = ' ' ∨ c = '\t' ∨ c = '\n' ∨ c = '\r'

/-- `String.prototype.trim()` (whitespace modelled as the ASCII blanks). -/
def trimString (s : String) : String :=
  .mk (((s.toList.dropWhile isAsciiWhitespace).reverse.dropWhile
    isAsciiWhitespace).reverse)

/-- The participation gate of the `preHandler` hook: only `POST`/`PATCH`
requests whose trimmed `Idempotency-Key` header is non-empty take part. -/
def idempotencyKeyOf (r : ApiRequest) : Option String :=
  if r.method = "POST" ∨ r.method = "PATCH" then
    match r.idemKey with
    | some k => if trimString k = "" then none else some (trimString k)
    | none => none
  else none

structure IdemMeta where
  key : String
  method : String
  route : String
  fingerprint : String
deriving DecidableEq, Repr

/-- Decision of the `preHandler` idempotency hook. -/
inductive PreDecision where
  | replay (statusCode : Nat) (body : String)
  | conflict
  | proceed (meta : Option IdemMeta)
deriving DecidableEq, Repr

/-- The `preHandler` idempotency hook. -/
def preHandlerDecision (records : List IdempotencyRecord) (r : ApiRequest) :
    PreDecision :=
  match idempotencyKeyOf r with
  | none => .proceed none
  | some key =>
      let fingerprint := idempotencyFingerprint r
      match findRecord records key r.method r.route with
      | some existing =>
          if existing.fingerprint ≠ fingerprint then .conflict
          else .replay existing.statusCode existing.responseBody
      | none => .proceed (some ⟨key, r.method, r.route, fingerprint⟩)

/-- What a route handler produces: the mutated domain store (including any
audit rows it appended) and its reply. -/
structure HandlerOutcome where
  db : Db
  statusCode : Nat
  body : Json

/-- `prisma.idempotencyRecord.create` with the `P2002` unique-violation
catch: an existing record for the triple is never overwritten. -/
def insertRecord (records : List IdempotencyRecord) (rec : IdempotencyRecord) :
    List IdempotencyRecord :=
  match findRecord records rec.key rec.method rec.route with
  | some _ => records
  | none => rec :: records

structure HttpResponse where
  statusCode : Nat
  body : String
  replay : Bool
deriving DecidableEq, Repr

/-- One request through the stack: `preHandler` idempotency hook → route
handler (skipped on replay/conflict) → `onSend` hook (error normalization,
serialization, record persistence for `status < 500`).  The replay branch
sends the stored body string verbatim: in the source that string is
re-parsed and re-serialized by `onSend`, and since stored bodies are
themselves `JSON.stringify` outputs of already-normalized values the
round-trip is the identity. -/
def processRequest (handler : Db → ApiRequest → HandlerOutcome)
    (st : ServerState) (r : ApiRequest) : ServerState × HttpResponse :=
  match preHandlerDecision st.records r with
  | .replay statusCode body => (st, ⟨statusCode, body, true⟩)
  | .conflict =>
      let out := normalizeErrorBody 409
        (errorPayloadJson 409
          "idempotency key reused with a different request payload"
          (some "IDEMPOTENCY_CONFLICT"))
      (st, ⟨409, jsonStringify out, false⟩)
  | .proceed meta =>
      let h := handler st.db r
      let out := normalizeErrorBody h.statusCode h.body
      let bodyStr := jsonStringify out
      let records1 :=
        match meta with
        | some m =>
            if h.statusCode < 500 then
              insertRecord st.records
                ⟨m.key, m.method, m.route, m.fingerprint, h.statusCode, bodyStr⟩
            else st.records
        | none => st.records
      ({ db := h.db, records := records1 }, ⟨h.statusCode, bodyStr, false⟩)

/-- C2: the idempotency replay law.  Process a keyed `POST`/`PATCH` request
with no prior record (first request, handler reply below 500, so the
response gets frozen); any later request with the same key, method, route
and fingerprint is answered with the frozen status and byte-identical body,
is marked as a replay, leaves the whole state (domain rows, audit rows and
idempotency records) untouched, and never executes the route handler — the
outcome is the same for every handler `handler₂`. -/
theorem idempotency_replay_law
    (st : ServerState) (r₁ r₂ : ApiRequest) (k : String)
    (handler : Db → ApiRequest → HandlerOutcome)
    (hkey : idempotencyKeyOf r₁ = some k)
    (hnone : findRecord st.records k r₁.method r₁.route = none)
    (hok : (handler st.db r₁).statusCode < 500)
    (hm : r₂.method = r₁.method) (hr : r₂.route = r₁.route)
    (hk2 : idempotencyKeyOf r₂ = some k)
    (hfp : idempotencyFingerprint r₂ = idempotencyFingerprint r₁) :
    ∀ handler₂ : Db → ApiRequest → HandlerOutcome,
      processRequest handler₂ (processRequest handler st r₁).1 r₂ =
        ((processRequest handler st r₁).1,
          ⟨(processRequest handler st r₁).2.statusCode,
            (processRequest handler st r₁).2.body, true⟩) := by
  intro handler₂
  have hstep1 : processRequest handler st r₁ =
      ({ db := (handler st.db r₁).db,
         records :=
           ⟨k, r₁.method, r₁.route, idempotencyFingerprint r₁,
             (handler st.db r₁).statusCode,
             jsonStringify (normalizeErrorBody (handler st.db r₁).statusCode
               (handler st.db r₁).body)⟩ :: st.records },
       ⟨(handler st.db r₁).statusCode,
         jsonStringify (normalizeErrorBody (handler st.db r₁).statusCode
           (handler st.db r₁).body), false⟩) := by
    simp only [processRequest, preHandlerDecision, hkey, hnone, insertRecord]
    rw [if_pos hok]
  rw [hstep1]
  simp only [processRequest, preHandlerDecision, hk2]
  have hfound : findRecord
      (⟨k, r₁.method, r₁.route, idempotencyFingerprint r₁,
        (handler st.db r₁).statusCode,
        jsonStringify (normalizeErrorBody (handler st.db r₁).statusCode
          (handler st.db r₁).body)⟩ :: st.records)
      k r₂.method r₂.route =
      some ⟨k, r₁.method, r₁.route, idempotencyFingerprint r₁,
        (handler st.db r₁).statusCode,
        jsonStringify (normalizeErrorBody (handler st.db r₁).statusCode
          (handler st.db r₁).body)⟩ := by
    rw [findRecord, List.find?_cons]
    rw [hm, hr]
    simp
  rw [hfound]
  simp [hfp]

theorem idempotency_replay_law_witness :
    processRequest (fun db _ => ⟨db, 500, .null⟩)
        (processRequest (fun db _ => ⟨db, 201, .null⟩) { }
          ⟨"POST", "/api/v1/stories", .obj [], .obj [], .null, some "key1"⟩).1
        ⟨"POST", "/api/v1/stories", .obj [], .obj [], .null, some "key1"⟩ =
      ((processRequest (fun db _ => ⟨db, 201, .null⟩) { }
          ⟨"POST", "/api/v1/stories", .obj [], .obj [], .null, some "key1"⟩).1,
        ⟨(processRequest (fun db _ => ⟨db, 201, .null⟩) { }
            ⟨"POST", "/api/v1/stories", .obj [], .obj [], .null, some "key1"⟩).2.statusCode,
          (processRequest (fun db _ => ⟨db, 201, .null⟩) { }
            ⟨"POST", "/api/v1/stories", .obj [], .obj [], .null, some "key1"⟩).2.body,
          true⟩) :=
  idempotency_replay_law { }
    ⟨"POST", "/api/v1/stories", .obj [], .obj [], .null, some "key1"⟩
    ⟨"POST", "/api/v1/stories", .obj [], .obj [], .null, some "key1"⟩
    "key1" (fun db _ => ⟨db, 201, .null⟩)
    (by decide) rfl (by decide) rfl rfl (by decide) rfl
    (fun db _ => ⟨db, 500, .null⟩)

/-- C3: the idempotency conflict law.  A keyed `POST`/`PATCH` request whose
`(key, method, route)` already has a record with a different fingerprint is
rejected with 409 and the `IDEMPOTENCY_CONFLICT` envelope; the state is
unchanged (in particular the stored record is not overwritten), and the
route handler is never executed — the outcome is the same for every
`handler`. -/
theorem idempotency_conflict_law
    (st : ServerState) (r : ApiRequest) (k : String) (rec : IdempotencyRecord)
    (hkey : idempotencyKeyOf r = some k)
    (hfound : findRecord st.records k r.method r.route = some rec)
    (hfp : rec.fingerprint ≠ idempotencyFingerprint r) :
    ∀ handler : Db → ApiRequest → HandlerOutcome,
      processRequest handler st r =
        (st, ⟨409,
          jsonStringify (errorPayloadJson 409
            "idempotency key reused with a different request payload"
            (some "IDEMPOTENCY_CONFLICT")), false⟩) := by
  intro handler
  simp only [processRequest, preHandlerDecision, hkey, hfound]
  rw [if_pos hfp]
  rfl

theorem idempotency_conflict_law_witness :
    processRequest (fun db _ => ⟨db, 201, .null⟩)
        { records := [⟨"key1", "POST", "/api/v1/stories", "other-fingerprint",
            201, "resp"⟩] }
        ⟨"POST", "/api/v1/stories", .obj [], .obj [], .null, some "key1"⟩ =
      ({ records := [⟨"key1", "POST", "/api/v1/stories", "other-fingerprint",
            201, "resp"⟩] },
        ⟨409,
          jsonStringify (errorPayloadJson 409
            "idempotency key reused with a different request payload"
            (some "IDEMPOTENCY_CONFLICT")), false⟩) :=
  idempotency_conflict_law
    { records := [⟨"key1", "POST", "/api/v1/stories", "other-fingerprint",
        201, "resp"⟩] }
    ⟨"POST", "/api/v1/stories", .obj [], .obj [], .null, some "key1"⟩
    "key1"
    ⟨"key1", "POST", "/api/v1/stories", "other-fingerprint", 201, "resp"⟩
    (by decide) (by decide) (by decide)
    (fun db _ => ⟨db, 201, .null⟩)

end Bolt
